import Mathlib

/-!
Verification of the `nozomi` optimizing interpreter (src/main.rs).

The development shallowly embeds the whole pipeline:

* `parse`            — lexer from source characters to `RawInst`
* `extract_loops`    — tree builder with an explicit stack of open bodies
* `optimize_basic`   — peephole coalescing plus clear-loop recognition
* `annotate_offset`  — offset annotation (every op at offset 0)
* `delay_move_ptr`   — pointer-move deferral with a running offset
* `remove_zero_move_ptr` — drops `MovePtr 0`
* `loop_to_addmul`   — multiply-loop strength reduction
* `bodyGo`/`loopGo`  — fuel-indexed interpreter mirroring `exec_body`

Machine bytes are `Nat` values reduced mod 256 at every write; the data
pointer is a `Nat` and `usize` arithmetic is modelled exactly:
`checked_add_signed(..).unwrap()` becomes `checkedIdx` (`none` = panic) and
`wrapping_add_signed` becomes `wrapIdx` (wraps mod 2^64).
-/

/-! ## The memory tape (`struct Memory(Vec<u8>)`) -/

/-! ## Optimization passes -/

/-- Tokens produced by the lexer, as in `enum RawInst`. -/
inductive RawInst where
  | AddI (x : Nat)
  | MovePtr (x : Int)
  | GetChar
  | PutChar
  | StartLoop
  | EndLoop
deriving DecidableEq

/-- `fn parse`: each recognized character maps to one token, everything
else is discarded. -/
def parse : List Char → List RawInst
  | [] => []
  | c :: rest =>
    (match c with
      | '+' => [RawInst.AddI 1]
      | '-' => [RawInst.AddI 255]
      | '>' => [RawInst.MovePtr 1]
      | '<' => [RawInst.MovePtr (-1)]
      | '[' => [RawInst.StartLoop]
      | ']' => [RawInst.EndLoop]
      | '.' => [RawInst.PutChar]
      | ',' => [RawInst.GetChar]
      | _ => []) ++ parse rest

/-- Tree operations, as in `enum Inst`. -/
inductive Inst where
  | AddI (x : Nat)
  | MovePtr (x : Int)
  | Init (x : Nat)
  | GetChar
  | PutChar
  | Loop (l : List Inst)

/-- One step of `fn extract_loops`' for-loop.  The stack of open bodies is
a list whose head is the top (the Rust `Vec`'s last element); an empty
stack models `loop_stack.last_mut()` returning `None`. -/
def extractGo : List RawInst → List (List Inst) → Option (List Inst)
  | [], stack =>
    match stack with
    | [top] => some top
    | _ => none
  | r :: rest, stack =>
    match stack with
    | [] => none
    | top :: others =>
      match r with
      | RawInst.AddI x => extractGo rest ((top ++ [Inst.AddI x]) :: others)
      | RawInst.MovePtr x => extractGo rest ((top ++ [Inst.MovePtr x]) :: others)
      | RawInst.GetChar => extractGo rest ((top ++ [Inst.GetChar]) :: others)
      | RawInst.PutChar => extractGo rest ((top ++ [Inst.PutChar]) :: others)
      | RawInst.StartLoop => extractGo rest ([] :: top :: others)
      | RawInst.EndLoop =>
        match others with
        | [] => none
        | next :: deeper => extractGo rest ((next ++ [Inst.Loop top]) :: deeper)

/-- `fn extract_loops`: start with one empty top-level body. -/
def extract_loops (raw : List RawInst) : Option (List Inst) :=
  extractGo raw [[]]

/-- Loop delimiters balance with `k` brackets currently open: no prefix
closes more than it opened, and at the end exactly the `k` open ones are
closed.  `balAux 0` is the usual balance condition. -/
def balAux : Nat → List RawInst → Bool
  | k, [] => k == 0
  | k, RawInst.StartLoop :: rest => balAux (k + 1) rest
  | k, RawInst.EndLoop :: rest =>
    match k with
    | 0 => false
    | k' + 1 => balAux k' rest
  | k, _ :: rest => balAux k rest

/-- `impl Index<usize> for Memory`: `self.0.get(index).unwrap_or(&0)`.
Returning the pair `(value, tape)` mirrors the Rust signature
`fn index(&self, ..) -> &u8`, whose `&self` receiver hands the tape back
untouched. -/
def indexRead (m : List Nat) (i : Nat) : Nat × List Nat :=
  (m.getD i 0, m)

/-- Reading a cell, as the engine does with `memory[index]` in a read
position. -/
def memRead (m : List Nat) (i : Nat) : Nat :=
  (indexRead m i).1

/-- `impl IndexMut<usize> for Memory`: grow to
`max(index+1, max(2*len, 30000))` zero-filled cells when writing past the
allocation, then store.  Cells are `u8`, so the stored value is reduced
mod 256. -/
def memWrite (m : List Nat) (i : Nat) (v : Nat) : List Nat :=
  let m' := if m.length ≤ i then
      m ++ List.replicate (max (i + 1) (max (2 * m.length) 30000) - m.length) 0
    else m
  m'.set i (v % 256)

/-- `result.push(Inst::AddI(x))` with coalescing into a trailing `AddI`
or `Init` (`optimize_basic`, AddI arm).  `acc` is the result list held in
reverse, so its head is the Rust `result.last_mut()`. -/
def pushA (acc : List Inst) (x : Nat) : List Inst :=
  match acc with
  | Inst.AddI y :: a => Inst.AddI ((y + x) % 256) :: a
  | Inst.Init y :: a => Inst.Init ((y + x) % 256) :: a
  | _ => Inst.AddI x :: acc

/-- `result.push(Inst::MovePtr(x))` with coalescing into a trailing
`MovePtr` (`optimize_basic`, MovePtr arm). -/
def pushM (acc : List Inst) (x : Int) : List Inst :=
  match acc with
  | Inst.MovePtr y :: a => Inst.MovePtr (y + x) :: a
  | _ => Inst.MovePtr x :: acc

/-- The for-loop of `fn optimize_basic` over the remaining input, with the
accumulated result in reverse. -/
def optBasicGo : List Inst → List Inst → List Inst
  | acc, [] => acc.reverse
  | acc, Inst.AddI x :: rest => optBasicGo (pushA acc x) rest
  | acc, Inst.MovePtr x :: rest => optBasicGo (pushM acc x) rest
  | acc, Inst.Loop l :: rest =>
    match optBasicGo [] l with
    | [Inst.AddI 255] => optBasicGo (Inst.Init 0 :: acc) rest
    | ob => optBasicGo (Inst.Loop ob :: acc) rest
  | acc, i :: rest => optBasicGo (i :: acc) rest
termination_by _ l => sizeOf l
decreasing_by all_goals (simp_wf; try omega)

/-- `fn optimize_basic`. -/
def optimize_basic (insts : List Inst) : List Inst :=
  optBasicGo [] insts

/-- Offset instructions, as in `enum InstWithOffset`. -/
inductive IWO where
  | AddI (ofs : Int) (x : Nat)
  | MovePtr (x : Int)
  | Init (ofs : Int) (x : Nat)
  | AddMul (ofs1 ofs2 : Int) (x : Nat)
  | GetChar (ofs : Int)
  | PutChar (ofs : Int)
  | Loop (l : List IWO)

/-- `fn annotate_offset`: every operation gets offset 0, loop bodies are
annotated independently. -/
def annotate_offset : List Inst → List IWO
  | [] => []
  | Inst.AddI x :: rest => IWO.AddI 0 x :: annotate_offset rest
  | Inst.MovePtr x :: rest => IWO.MovePtr x :: annotate_offset rest
  | Inst.Init x :: rest => IWO.Init 0 x :: annotate_offset rest
  | Inst.GetChar :: rest => IWO.GetChar 0 :: annotate_offset rest
  | Inst.PutChar :: rest => IWO.PutChar 0 :: annotate_offset rest
  | Inst.Loop l :: rest => IWO.Loop (annotate_offset l) :: annotate_offset rest

/-- The for-loop of `fn delay_move_ptr` with running offset `ofs`: shift
every cell operation by the pending offset, absorb `MovePtr`s into it,
flush it as a single `MovePtr` before each loop (resetting to 0) and at
the end of the sequence when non-zero. -/
def delayGo (ofs : Int) : List IWO → List IWO
  | [] => if ofs ≠ 0 then [IWO.MovePtr ofs] else []
  | IWO.AddI o x :: rest => IWO.AddI (o + ofs) x :: delayGo ofs rest
  | IWO.MovePtr x :: rest => delayGo (ofs + x) rest
  | IWO.Init o x :: rest => IWO.Init (o + ofs) x :: delayGo ofs rest
  | IWO.AddMul o1 o2 x :: rest => IWO.AddMul (o1 + ofs) (o2 + ofs) x :: delayGo ofs rest
  | IWO.GetChar o :: rest => IWO.GetChar (o + ofs) :: delayGo ofs rest
  | IWO.PutChar o :: rest => IWO.PutChar (o + ofs) :: delayGo ofs rest
  | IWO.Loop l :: rest => IWO.MovePtr ofs :: IWO.Loop (delayGo 0 l) :: delayGo 0 rest

/-- `fn delay_move_ptr` starts with offset 0. -/
def delay_move_ptr (insts : List IWO) : List IWO :=
  delayGo 0 insts

/-- `fn remove_zero_move_ptr`. -/
def remove_zero_move_ptr : List IWO → List IWO
  | [] => []
  | IWO.MovePtr x :: rest =>
    if x ≠ 0 then IWO.MovePtr x :: remove_zero_move_ptr rest
    else remove_zero_move_ptr rest
  | IWO.Loop l :: rest => IWO.Loop (remove_zero_move_ptr l) :: remove_zero_move_ptr rest
  | i :: rest => i :: remove_zero_move_ptr rest

/-- The scan of `fn loop_to_addmul_body`: accumulate the wrapping sum
`base_add` of deltas at offset 0 and the list `add_ops` of other-offset
`(offset, delta)` pairs; any non-`AddI` aborts. -/
def l2aScan : List IWO → Nat → List (Int × Nat) → Option (Nat × List (Int × Nat))
  | [], base, adds => some (base, adds)
  | IWO.AddI ofs x :: rest, base, adds =>
    if ofs = 0 then l2aScan rest ((base + x) % 256) adds
    else l2aScan rest base (adds ++ [(ofs, x)])
  | _ :: _, _, _ => none

/-- `fn loop_to_addmul_body`: a body of nothing but `AddI`s whose deltas
at offset 0 wrap to 255 becomes one `AddMul(0, o, d)` per other-offset
pair, in order, followed by `Init(0, 0)`. -/
def loop_to_addmul_body (l : List IWO) : Option (List IWO) :=
  match l2aScan l 0 [] with
  | none => none
  | some (base, adds) =>
    if base = 255 then
      some ((adds.map fun p => IWO.AddMul 0 p.1 p.2) ++ [IWO.Init 0 0])
    else none

/-- `fn loop_to_addmul`: note that a qualifying loop's rewritten body is
wrapped back in an `IWO.Loop` node. -/
def loop_to_addmul : List IWO → List IWO
  | [] => []
  | IWO.Loop l :: rest =>
    (match loop_to_addmul_body l with
      | some newInsts => IWO.Loop newInsts
      | none => IWO.Loop (loop_to_addmul l)) :: loop_to_addmul rest
  | i :: rest => i :: loop_to_addmul rest

/-- `usize::MAX + 1`. -/
def USIZE : Nat := 2 ^ 64

/-- `ptr.checked_add_signed(ofs).unwrap()`: `none` models the `unwrap`
panic, on a negative result or on `usize` overflow. -/
def checkedIdx (p : Nat) (o : Int) : Option Nat :=
  if 0 ≤ (p : Int) + o ∧ ((p : Int) + o).toNat < USIZE then some ((p : Int) + o).toNat
  else none

/-- `ptr.wrapping_add_signed(ofs)`: wraps modulo `2^64`. -/
def wrapIdx (p : Nat) (o : Int) : Nat :=
  (((p : Int) + o) % (USIZE : Int)).toNat

/-- Interpreter state: the tape, the data pointer, the bytes remaining on
standard input and the bytes written so far. -/
structure St where
  mem : List Nat
  ptr : Nat
  inp : List Nat
  out : List Nat
deriving DecidableEq

/-- The non-loop arms of the `match` in `fn exec_body`.  `AddI`,
`MovePtr`, `AddMul`, `GetChar` and `PutChar` compute their address with
`checked_add_signed(..).unwrap()`; `Init` alone uses
`wrapping_add_signed`.  `GetChar` on exhausted input models the
`read_exact` error.  `Loop` is interpreted by `loopGo`, never here. -/
def execOne : IWO → St → Option St
  | IWO.AddI ofs x, s =>
    match checkedIdx s.ptr ofs with
    | none => none
    | some i => some { s with mem := memWrite s.mem i (memRead s.mem i + x) }
  | IWO.MovePtr x, s =>
    match checkedIdx s.ptr x with
    | none => none
    | some p => some { s with ptr := p }
  | IWO.Init ofs x, s =>
    some { s with mem := memWrite s.mem (wrapIdx s.ptr ofs) x }
  | IWO.AddMul ofs1 ofs2 x, s =>
    match checkedIdx s.ptr ofs1 with
    | none => none
    | some i1 =>
      match checkedIdx s.ptr ofs2 with
      | none => none
      | some i2 =>
        some { s with mem := memWrite s.mem i2 (memRead s.mem i2 + memRead s.mem i1 * x) }
  | IWO.GetChar ofs, s =>
    match checkedIdx s.ptr ofs with
    | none => none
    | some i =>
      match s.inp with
      | [] => none
      | b :: rest => some { s with mem := memWrite s.mem i b, inp := rest }
  | IWO.PutChar ofs, s =>
    match checkedIdx s.ptr ofs with
    | none => none
    | some i => some { s with out := s.out ++ [memRead s.mem i] }
  | IWO.Loop _, _ => none

mutual

/-- `fn exec_body`, fuel-indexed: the fuel bounds how many times any loop
may iterate; `none` is a panic, an input/output failure, or fuel running
out. -/
def bodyGo : Nat → List IWO → St → Option St
  | _, [], s => some s
  | f, i :: rest, s =>
    match i with
    | IWO.Loop l =>
      match loopGo f l s with
      | none => none
      | some s' => bodyGo f rest s'
    | _ =>
      match execOne i s with
      | none => none
      | some s' => bodyGo f rest s'
termination_by f insts _ => (f, sizeOf insts)
decreasing_by all_goals (simp_wf; try omega)

/-- The `while memory[*ptr] != 0` loop of `fn exec_body`. -/
def loopGo : Nat → List IWO → St → Option St
  | 0, _, s => if memRead s.mem s.ptr = 0 then some s else none
  | f + 1, l, s =>
    if memRead s.mem s.ptr = 0 then some s
    else
      match bodyGo f l s with
      | none => none
      | some s' => loopGo f l s'
termination_by f l _ => (f, sizeOf l + 1)
decreasing_by all_goals (simp_wf; try omega)

end

/-- `fn exec`'s starting state: a 30000-cell zero tape, pointer 0, the
given input, no output yet. -/
def initSt (input : List Nat) : St :=
  ⟨List.replicate 30000 0, 0, input, []⟩

/-- A terminating run: some fuel suffices to execute `insts` from `s` and
finish in `s'`. -/
def Execs (insts : List IWO) (s s' : St) : Prop :=
  ∃ f, bodyGo f insts s = some s'

/-- A terminating run of one `while`-loop with body `l`. -/
def LoopExec (l : List IWO) (s s' : St) : Prop :=
  ∃ f, loopGo f l s = some s'

/-- The whole optimization pipeline of `fn main` after `extract_loops`. -/
def pipeline (insts : List Inst) : List IWO :=
  loop_to_addmul (remove_zero_move_ptr (delay_move_ptr (annotate_offset (optimize_basic insts))))

/-- One instruction of `fn exec_body`: a loop node runs the `while` loop,
anything else is a simple arm. -/
def stepGo (f : Nat) : IWO → St → Option St
  | IWO.Loop l, s => loopGo f l s
  | i, s => execOne i s

/-- All cells of a tape are bytes. -/
def cellsWF (m : List Nat) : Prop := ∀ v ∈ m, v < 256

/-- Reachable machine states: the pointer fits in `usize` and cells are
bytes.  `fn exec` starts in such a state and every step preserves it. -/
def WF (s : St) : Prop := s.ptr < USIZE ∧ cellsWF s.mem

/-- Observational equality of states: the tapes read the same at every
index (allocated length may differ), and pointer, remaining input and
produced output agree. -/
def stEquiv (s t : St) : Prop :=
  (∀ i, memRead s.mem i = memRead t.mem i) ∧ s.ptr = t.ptr ∧ s.inp = t.inp ∧ s.out = t.out

/-- Forward simulation up to observational equality, from well-formed
states: every terminating run of `xs` is matched by a run of `ys` with an
observationally equal final state. -/
def SimE (xs ys : List IWO) : Prop :=
  ∀ s s', WF s → Execs xs s s' → ∃ s'', Execs ys s s'' ∧ stEquiv s'' s'

/-- The `(offset, delta)` pairs of the `AddI` operations of a sequence. -/
def addPairs : List IWO → List (Int × Nat)
  | [] => []
  | IWO.AddI o x :: rest => (o, x) :: addPairs rest
  | _ :: rest => addPairs rest

/-- Whether every operation of a sequence is an `AddI`. -/
def allAdds : List IWO → Prop
  | [] => True
  | IWO.AddI _ _ :: rest => allAdds rest
  | _ :: _ => False

/-- Total delta written per naive iteration to absolute cell `i`, with the
pointer at `p`. -/
def deltaAt (ps : List (Int × Nat)) (p i : Nat) : Nat :=
  match ps with
  | [] => 0
  | (o, x) :: rest => (if checkedIdx p o = some i then x else 0) + deltaAt rest p i

/-- Sum of the deltas at offset 0. -/
def zeroSum : List (Int × Nat) → Nat
  | [] => 0
  | (o, x) :: rest => (if o = 0 then x else 0) + zeroSum rest

/-- The pairs at non-zero offsets, in order. -/
def nzPairs : List (Int × Nat) → List (Int × Nat)
  | [] => []
  | (o, x) :: rest => if o = 0 then nzPairs rest else (o, x) :: nzPairs rest

/-- Net pointer displacement of a sequence's `MovePtr` operations. -/
def moveSum : List IWO → Int
  | [] => 0
  | IWO.MovePtr x :: rest => x + moveSum rest
  | _ :: rest => moveSum rest

/-- The non-`MovePtr` operations of a loop-free sequence, shifted by the
running offset — what deferral emits strictly before the flush. -/
def emitGo (ofs : Int) : List IWO → List IWO
  | [] => []
  | IWO.AddI o x :: rest => IWO.AddI (o + ofs) x :: emitGo ofs rest
  | IWO.MovePtr x :: rest => emitGo (ofs + x) rest
  | IWO.Init o x :: rest => IWO.Init (o + ofs) x :: emitGo ofs rest
  | IWO.AddMul o1 o2 x :: rest => IWO.AddMul (o1 + ofs) (o2 + ofs) x :: emitGo ofs rest
  | IWO.GetChar o :: rest => IWO.GetChar (o + ofs) :: emitGo ofs rest
  | IWO.PutChar o :: rest => IWO.PutChar (o + ofs) :: emitGo ofs rest
  | IWO.Loop _ :: rest => emitGo ofs rest

/-- No `Loop` node at the top level of the sequence. -/
def noLoopIn : List IWO → Bool
  | [] => true
  | IWO.Loop _ :: _ => false
  | _ :: rest => noLoopIn rest

/-- Can the peephole pass coalesce `b` into an immediately preceding `a`?
Exactly the three cases of `optimize_basic`: add-into-add, add-into-init,
move-into-move. -/
def canMerge : Inst → Inst → Prop
  | Inst.AddI _, Inst.AddI _ => True
  | Inst.Init _, Inst.AddI _ => True
  | Inst.MovePtr _, Inst.MovePtr _ => True
  | _, _ => False

mutual

/-- An instruction whose loop body (if any) is already a fixed point of
the peephole pass: no adjacent mergeable pair, not the clear-loop body
`[AddI 255]`, and recursively fixed. -/
def bodyFixed : Inst → Prop
  | Inst.Loop l =>
    l ≠ [Inst.AddI 255] ∧ List.Chain' (fun a b => ¬ canMerge a b) l ∧ allFixed l
  | _ => True

/-- Every instruction of the list is `bodyFixed`. -/
def allFixed : List Inst → Prop
  | [] => True
  | i :: rest => bodyFixed i ∧ allFixed rest

end

/-- Every tree operation of the list is an `AddI`. -/
def allInstAdds : List Inst → Prop
  | [] => True
  | Inst.AddI _ :: rest => allInstAdds rest
  | _ :: _ => False

/-- Plain sum of the `AddI` deltas of a tree-operation list. -/
def instAddSum : List Inst → Nat
  | [] => 0
  | Inst.AddI x :: rest => x + instAddSum rest
  | _ :: rest => instAddSum rest

/-! ## Theorems -/

theorem extractGo_isSome (raw : List RawInst) :
    ∀ (stack : List (List Inst)) (k : Nat), stack.length = k + 1 →
      ((extractGo raw stack).isSome ↔ balAux k raw = true) := by
  induction raw with
  | nil =>
    intro stack k hlen
    match stack, k with
    | [top], 0 => simp [extractGo, balAux]
    | [top], k + 1 => simp at hlen
    | t₁ :: t₂ :: rest, k =>
      simp at hlen
      match k, hlen with
      | k + 1, hlen =>
        simp [extractGo, balAux]
  | cons r rest ih =>
    intro stack k hlen
    match stack with
    | [] => simp at hlen
    | top :: others =>
      cases r with
      | AddI x =>
        simpa [extractGo, balAux] using ih ((top ++ [Inst.AddI x]) :: others) k (by simpa using hlen)
      | MovePtr x =>
        simpa [extractGo, balAux] using ih ((top ++ [Inst.MovePtr x]) :: others) k (by simpa using hlen)
      | GetChar =>
        simpa [extractGo, balAux] using ih ((top ++ [Inst.GetChar]) :: others) k (by simpa using hlen)
      | PutChar =>
        simpa [extractGo, balAux] using ih ((top ++ [Inst.PutChar]) :: others) k (by simpa using hlen)
      | StartLoop =>
        simpa [extractGo, balAux] using ih ([] :: top :: others) (k + 1) (by simpa using hlen)
      | EndLoop =>
        match others, k with
        | [], 0 => simp [extractGo, balAux]
        | [], k + 1 => simp at hlen
        | next :: deeper, k =>
          simp at hlen
          match k, hlen with
          | k + 1, hlen =>
            simpa [extractGo, balAux] using
              ih ((next ++ [Inst.Loop top]) :: deeper) k (by simpa using hlen)

/-- **C5.** The tree builder fails exactly on unbalanced delimiter
sequences: `extract_loops` returns `none` iff the token stream is not
balanced (an `EndLoop` with nothing to pop into, or open `StartLoop`s left
at the end); on every balanced input it returns a tree. -/
theorem extract_loops_none_iff_unbalanced (raw : List RawInst) :
    extract_loops raw = none ↔ ¬ balAux 0 raw = true := by
  have h := extractGo_isSome raw [[]] 0 (by simp)
  unfold extract_loops
  rw [← h]
  cases extractGo raw [[]] <;> simp

theorem memRead_def (m : List Nat) (i : Nat) : memRead m i = m.getD i 0 := rfl

theorem memRead_oob {m : List Nat} {i : Nat} (h : m.length ≤ i) : memRead m i = 0 := by
  simp [memRead, indexRead, List.getD_eq_getElem?_getD, List.getElem?_eq_none h]

theorem length_memWrite_grow {m : List Nat} {i : Nat} (h : m.length ≤ i) (v : Nat) :
    (memWrite m i v).length = max (i + 1) (max (2 * m.length) 30000) := by
  simp only [memWrite, if_pos h, List.length_set, List.length_append, List.length_replicate]
  omega

theorem getD_append_replicate_zero (l : List Nat) (n j : Nat) :
    (l ++ List.replicate n 0).getD j 0 = l.getD j 0 := by
  rcases Nat.lt_or_ge j l.length with hj | hj
  · rw [List.getD_eq_getElem?_getD, List.getElem?_append_left hj,
      List.getD_eq_getElem?_getD]
  · have h1 : l.getD j 0 = 0 := by
      rw [List.getD_eq_getElem?_getD, List.getElem?_eq_none hj]; rfl
    rw [h1, List.getD_eq_getElem?_getD, List.getElem?_append_right hj]
    rcases Nat.lt_or_ge (j - l.length) n with h2 | h2
    · rw [show (List.replicate n (0 : Nat))[j - l.length]? = some 0 by
        simp [List.getElem?_replicate, h2]]
      rfl
    · rw [List.getElem?_eq_none (show (List.replicate n (0 : Nat)).length ≤ j - l.length by
        simpa using h2)]
      rfl

theorem memRead_replicate_zero (n j : Nat) : memRead (List.replicate n 0) j = 0 := by
  rcases Nat.lt_or_ge j n with hj | hj
  · rw [memRead_def, List.getD_eq_getElem?_getD,
      show (List.replicate n (0 : Nat))[j]? = some 0 by simp [List.getElem?_replicate, hj]]
    rfl
  · exact memRead_oob (by simpa using hj)

theorem memRead_memWrite_self (m : List Nat) (i : Nat) (v : Nat) :
    memRead (memWrite m i v) i = v % 256 := by
  have hlen : i < (if m.length ≤ i then
      m ++ List.replicate (max (i + 1) (max (2 * m.length) 30000) - m.length) 0
    else m).length := by
    split
    · simp only [List.length_append, List.length_replicate]; omega
    · omega
  simp only [memRead, indexRead, memWrite]
  rw [List.getD_eq_getElem?_getD, List.getElem?_set_self (by simpa using hlen)]
  rfl

theorem memRead_memWrite_ne (m : List Nat) {i j : Nat} (hne : j ≠ i) (v : Nat) :
    memRead (memWrite m i v) j = memRead m j := by
  simp only [memRead, indexRead, memWrite]
  rw [List.getD_eq_getElem?_getD, List.getElem?_set_ne (by omega),
    ← List.getD_eq_getElem?_getD]
  split
  · exact getD_append_replicate_zero m _ j
  · rfl

/-- **C7.** Tape behaviour: a read at or past the allocation is zero; a
write at or past the allocation grows the tape to exactly
`max(index+1, max(2*len, 30000))` cells, keeps every previously stored
value, zero-fills every other new cell, and stores the written byte; in
particular a write at index 40000 on the fresh 30000-cell tape grows it to
60000 cells and leaves every other index reading zero. -/
theorem memory_growth (m : List Nat) (i v : Nat) (hoob : m.length ≤ i) (hv : v < 256) :
    memRead m i = 0 ∧
    (memWrite m i v).length = max (i + 1) (max (2 * m.length) 30000) ∧
    (∀ j, j < m.length → j ≠ i → memRead (memWrite m i v) j = memRead m j) ∧
    (∀ j, m.length ≤ j → j ≠ i → memRead (memWrite m i v) j = 0) ∧
    memRead (memWrite m i v) i = v ∧
    (∀ j, j ≠ 40000 → memRead (memWrite (List.replicate 30000 0) 40000 v) j = 0) ∧
    (memWrite (List.replicate 30000 0) 40000 v).length = 60000 ∧
    memRead (memWrite (List.replicate 30000 0) 40000 v) 40000 = v := by
  refine ⟨memRead_oob hoob, length_memWrite_grow hoob v, ?_, ?_, ?_, ?_, ?_, ?_⟩
  · intro j _ hne; exact memRead_memWrite_ne m hne v
  · intro j hj hne
    rw [memRead_memWrite_ne m hne v]; exact memRead_oob hj
  · rw [memRead_memWrite_self]; exact Nat.mod_eq_of_lt hv
  · intro j hne
    rw [memRead_memWrite_ne _ hne v]
    exact memRead_replicate_zero 30000 j
  · rw [length_memWrite_grow (by simp only [List.length_replicate]; omega) v]
    simp only [List.length_replicate]
    omega
  · rw [memRead_memWrite_self]; exact Nat.mod_eq_of_lt hv

theorem memory_growth_witness :
    (List.replicate 3 0).length ≤ 5 ∧ (7 : Nat) < 256 ∧
    (memRead (List.replicate 3 0) 5 = 0 ∧
      (memWrite (List.replicate 3 0) 5 7).length =
        max (5 + 1) (max (2 * (List.replicate 3 (0 : Nat)).length) 30000) ∧
      (∀ j, j < (List.replicate 3 (0 : Nat)).length → j ≠ 5 →
        memRead (memWrite (List.replicate 3 0) 5 7) j = memRead (List.replicate 3 0) j) ∧
      (∀ j, (List.replicate 3 (0 : Nat)).length ≤ j → j ≠ 5 →
        memRead (memWrite (List.replicate 3 0) 5 7) j = 0) ∧
      memRead (memWrite (List.replicate 3 0) 5 7) 5 = 7 ∧
      (∀ j, j ≠ 40000 → memRead (memWrite (List.replicate 30000 0) 40000 7) j = 0) ∧
      (memWrite (List.replicate 30000 0) 40000 7).length = 60000 ∧
      memRead (memWrite (List.replicate 30000 0) 40000 7) 40000 = 7) :=
  ⟨by decide, by decide, memory_growth (List.replicate 3 0) 5 7 (by decide) (by decide)⟩

/-- **C10.** The read-indexing operation is observation only: on every
tape and index (in bounds or not) it returns the `getD`-with-zero value —
zero at or past the allocation — and hands the tape back unchanged, with
the same length and the same stored cells; growth can come only from the
write-indexing operation `memWrite`. -/
theorem index_read_pure (m : List Nat) (i : Nat) :
    (indexRead m i).2 = m ∧
    (indexRead m i).1 = m.getD i 0 ∧
    (m.length ≤ i → (indexRead m i).1 = 0) ∧
    ((indexRead m i).2).length = m.length ∧
    (∀ j, ((indexRead m i).2).getD j 0 = m.getD j 0) := by
  refine ⟨rfl, rfl, ?_, rfl, fun _ => rfl⟩
  intro h
  exact memRead_oob h

theorem index_read_pure_witness :
    (indexRead [1, 2] 5).2 = [1, 2] ∧
    (indexRead [1, 2] 5).1 = [1, 2].getD 5 0 ∧
    ([1, 2].length ≤ 5 → (indexRead [1, 2] 5).1 = 0) ∧
    ((indexRead [1, 2] 5).2).length = [1, 2].length ∧
    (∀ j, ((indexRead [1, 2] 5).2).getD j 0 = [1, 2].getD j 0) :=
  index_read_pure [1, 2] 5

/-- **C2 (code bug).** On the input of the repository's own unit test
`test_loop_to_addmul`, `loop_to_addmul` keeps a `Loop` node around the
rewritten body, so its output differs from the flat sequence
`[AddI(0,2), MovePtr(2), AddMul(0,1,1), Init(0,0)]` that the test (and
the spec) demand. -/
theorem loop_to_addmul_keeps_loop_node :
    loop_to_addmul
        [IWO.AddI 0 2, IWO.MovePtr 2, IWO.Loop [IWO.AddI 0 255, IWO.AddI 1 1]] =
      [IWO.AddI 0 2, IWO.MovePtr 2, IWO.Loop [IWO.AddMul 0 1 1, IWO.Init 0 0]] ∧
    [IWO.AddI 0 2, IWO.MovePtr 2, IWO.Loop [IWO.AddMul 0 1 1, IWO.Init 0 0]] ≠
      [IWO.AddI 0 2, IWO.MovePtr 2, IWO.AddMul 0 1 1, IWO.Init 0 0] := by
  constructor
  · simp [loop_to_addmul, loop_to_addmul_body, l2aScan]
  · intro h
    exact absurd (List.head_eq_of_cons_eq (List.tail_eq_of_cons_eq
      (List.tail_eq_of_cons_eq h))) (by intro hh; cases hh)

theorem checkedIdx_zero_neg_one : checkedIdx 0 (-1) = none := by decide

theorem wrapIdx_zero_neg_one : wrapIdx 0 (-1) = USIZE - 1 := by decide

/-- **C4 (code bug).** The engine does not apply one pointer-address
policy uniformly: with the pointer at 0 and offset −1, `AddI`, `MovePtr`,
`AddMul`, `GetChar` and `PutChar` all hit the fatal
`checked_add_signed(..).unwrap()` fault, while `Init` (`SetZero`) wraps
the address via `wrapping_add_signed` to `2^64 − 1` and proceeds. -/
theorem mixed_pointer_underflow_policy :
    execOne (IWO.AddI (-1) 1) ⟨[], 0, [], []⟩ = none ∧
    execOne (IWO.MovePtr (-1)) ⟨[], 0, [], []⟩ = none ∧
    execOne (IWO.AddMul (-1) 0 1) ⟨[], 0, [], []⟩ = none ∧
    execOne (IWO.GetChar (-1)) ⟨[], 0, [7], []⟩ = none ∧
    execOne (IWO.PutChar (-1)) ⟨[], 0, [], []⟩ = none ∧
    execOne (IWO.Init (-1) 5) ⟨[], 0, [], []⟩ ≠ none ∧
    wrapIdx 0 (-1) = USIZE - 1 := by
  refine ⟨?_, ?_, ?_, ?_, ?_, ?_, wrapIdx_zero_neg_one⟩ <;>
    simp [execOne, checkedIdx_zero_neg_one]

/-! ### Interpreter toolkit -/

theorem bodyGo_nil (f : Nat) (s : St) : bodyGo f [] s = some s := by
  simp [bodyGo]

theorem bodyGo_cons (f : Nat) (i : IWO) (rest : List IWO) (s : St) :
    bodyGo f (i :: rest) s =
      match stepGo f i s with
      | none => none
      | some s' => bodyGo f rest s' := by
  cases i <;> simp [bodyGo, stepGo]

theorem loopGo_zero (l : List IWO) (s : St) :
    loopGo 0 l s = if memRead s.mem s.ptr = 0 then some s else none := by
  simp [loopGo]

theorem loopGo_succ (f : Nat) (l : List IWO) (s : St) :
    loopGo (f + 1) l s =
      if memRead s.mem s.ptr = 0 then some s
      else
        match bodyGo f l s with
        | none => none
        | some s' => loopGo f l s' := by
  simp [loopGo]

theorem go_mono (f : Nat) :
    (∀ insts s r, bodyGo f insts s = some r → bodyGo (f + 1) insts s = some r) ∧
    (∀ l s r, loopGo f l s = some r → loopGo (f + 1) l s = some r) := by
  induction f with
  | zero =>
    have hq : ∀ l s r, loopGo 0 l s = some r → loopGo 1 l s = some r := by
      intro l s r h
      rw [loopGo_zero] at h
      rw [loopGo_succ]
      by_cases hc : memRead s.mem s.ptr = 0
      · simpa [hc] using h
      · simp [hc] at h
    refine ⟨?_, hq⟩
    intro insts
    induction insts with
    | nil => intro s r h; simpa [bodyGo_nil] using h
    | cons i rest ih =>
      intro s r h
      rw [bodyGo_cons] at h
      rw [bodyGo_cons]
      cases i <;> simp only [stepGo] at h ⊢ <;>
        [skip; skip; skip; skip; skip; skip;
         (cases hl : loopGo 0 _ s with
          | none => rw [hl] at h; exact absurd h (by simp)
          | some s₁ =>
            rw [hl] at h
            rw [hq _ _ _ hl]
            exact ih s₁ r h)] <;>
        (cases he : execOne _ s with
          | none => rw [he] at h; exact absurd h (by simp)
          | some s₁ =>
            rw [he] at h
            exact ih s₁ r h)
  | succ f ihf =>
    obtain ⟨ihb, ihl⟩ := ihf
    have hq : ∀ l s r, loopGo (f + 1) l s = some r → loopGo (f + 2) l s = some r := by
      intro l s r h
      rw [loopGo_succ] at h
      rw [loopGo_succ]
      by_cases hc : memRead s.mem s.ptr = 0
      · simpa [hc] using h
      · simp only [hc, if_false, if_neg hc] at h ⊢
        cases hb : bodyGo f l s with
        | none => rw [hb] at h; exact absurd h (by simp)
        | some s₁ =>
          rw [hb] at h
          rw [ihb _ _ _ hb]
          exact ihl _ _ _ h
    refine ⟨?_, hq⟩
    intro insts
    induction insts with
    | nil => intro s r h; simpa [bodyGo_nil] using h
    | cons i rest ih =>
      intro s r h
      rw [bodyGo_cons] at h
      rw [bodyGo_cons]
      cases i <;> simp only [stepGo] at h ⊢ <;>
        [skip; skip; skip; skip; skip; skip;
         (cases hl : loopGo (f + 1) _ s with
          | none => rw [hl] at h; exact absurd h (by simp)
          | some s₁ =>
            rw [hl] at h
            rw [hq _ _ _ hl]
            exact ih s₁ r h)] <;>
        (cases he : execOne _ s with
          | none => rw [he] at h; exact absurd h (by simp)
          | some s₁ =>
            rw [he] at h
            exact ih s₁ r h)

theorem bodyGo_mono {f f' : Nat} (hle : f ≤ f') {insts : List IWO} {s r : St}
    (h : bodyGo f insts s = some r) : bodyGo f' insts s = some r := by
  induction f', hle using Nat.le_induction with
  | base => exact h
  | succ n _ ih => exact (go_mono n).1 _ _ _ ih

theorem loopGo_mono {f f' : Nat} (hle : f ≤ f') {l : List IWO} {s r : St}
    (h : loopGo f l s = some r) : loopGo f' l s = some r := by
  induction f', hle using Nat.le_induction with
  | base => exact h
  | succ n _ ih => exact (go_mono n).2 _ _ _ ih

theorem bodyGo_append (f : Nat) (xs ys : List IWO) (s : St) :
    bodyGo f (xs ++ ys) s =
      match bodyGo f xs s with
      | none => none
      | some s' => bodyGo f ys s' := by
  induction xs generalizing s with
  | nil => simp [bodyGo_nil]
  | cons i rest ih =>
    rw [List.cons_append, bodyGo_cons, bodyGo_cons]
    cases stepGo f i s with
    | none => rfl
    | some s₁ => exact ih s₁

theorem Execs_nil (s : St) : Execs [] s s :=
  ⟨0, bodyGo_nil 0 s⟩

theorem Execs_cons_exec {i : IWO} (hnl : ∀ l, i ≠ IWO.Loop l) {s s₁ s' : St}
    (h1 : execOne i s = some s₁) {rest : List IWO} (h2 : Execs rest s₁ s') :
    Execs (i :: rest) s s' := by
  obtain ⟨f, hf⟩ := h2
  refine ⟨f, ?_⟩
  rw [bodyGo_cons]
  have hs : stepGo f i s = execOne i s := by
    cases i <;> first | rfl | exact absurd rfl (hnl _)
  rw [hs, h1]
  exact hf

theorem Execs_cons_loop {l rest : List IWO} {s s₁ s' : St}
    (h1 : LoopExec l s s₁) (h2 : Execs rest s₁ s') :
    Execs (IWO.Loop l :: rest) s s' := by
  obtain ⟨f1, hf1⟩ := h1
  obtain ⟨f2, hf2⟩ := h2
  refine ⟨max f1 f2, ?_⟩
  rw [bodyGo_cons]
  have h1' : stepGo (max f1 f2) (IWO.Loop l) s = some s₁ :=
    loopGo_mono (Nat.le_max_left f1 f2) hf1
  rw [h1']
  exact bodyGo_mono (Nat.le_max_right f1 f2) hf2

theorem Execs_cons_inv {i : IWO} {rest : List IWO} {s s' : St}
    (h : Execs (i :: rest) s s') :
    ∃ s₁, ((∀ l, i ≠ IWO.Loop l) → execOne i s = some s₁) ∧
      (∀ l, i = IWO.Loop l → LoopExec l s s₁) ∧ Execs rest s₁ s' := by
  obtain ⟨f, hf⟩ := h
  rw [bodyGo_cons] at hf
  cases hstep : stepGo f i s with
  | none => rw [hstep] at hf; exact absurd hf (by simp)
  | some s₁ =>
    rw [hstep] at hf
    refine ⟨s₁, ?_, ?_, ⟨f, hf⟩⟩
    · intro hnl
      rw [← hstep]
      cases i <;> first | rfl | exact absurd rfl (hnl _)
    · intro l hil
      subst hil
      exact ⟨f, hstep⟩

theorem Execs_append {xs ys : List IWO} {s s' : St} :
    Execs (xs ++ ys) s s' ↔ ∃ s₁, Execs xs s s₁ ∧ Execs ys s₁ s' := by
  constructor
  · rintro ⟨f, hf⟩
    rw [bodyGo_append] at hf
    cases hxs : bodyGo f xs s with
    | none => rw [hxs] at hf; exact absurd hf (by simp)
    | some s₁ =>
      rw [hxs] at hf
      exact ⟨s₁, ⟨f, hxs⟩, ⟨f, hf⟩⟩
  · rintro ⟨s₁, ⟨f1, h1⟩, ⟨f2, h2⟩⟩
    refine ⟨max f1 f2, ?_⟩
    rw [bodyGo_append, bodyGo_mono (Nat.le_max_left f1 f2) h1]
    exact bodyGo_mono (Nat.le_max_right f1 f2) h2

theorem Execs_singleton_loop {l : List IWO} {s s' : St} :
    Execs [IWO.Loop l] s s' ↔ LoopExec l s s' := by
  constructor
  · intro h
    obtain ⟨s₁, _, hl, hrest⟩ := Execs_cons_inv h
    obtain ⟨f, hf⟩ := hrest
    rw [bodyGo_nil] at hf
    cases hf
    exact hl l rfl
  · intro h
    exact Execs_cons_loop h (Execs_nil s')

theorem LoopExec_zero {l : List IWO} {s : St} (h : memRead s.mem s.ptr = 0) :
    LoopExec l s s :=
  ⟨0, by rw [loopGo_zero, if_pos h]⟩

theorem LoopExec_iter {l : List IWO} {s s₁ s' : St} (h : memRead s.mem s.ptr ≠ 0)
    (h1 : Execs l s s₁) (h2 : LoopExec l s₁ s') : LoopExec l s s' := by
  obtain ⟨f1, hf1⟩ := h1
  obtain ⟨f2, hf2⟩ := h2
  refine ⟨max f1 f2 + 1, ?_⟩
  rw [loopGo_succ, if_neg h]
  rw [bodyGo_mono (Nat.le_max_left f1 f2) hf1]
  exact loopGo_mono (Nat.le_max_right f1 f2) hf2

/-- Derivation induction for terminating `while`-loop runs. -/
theorem LoopExec_induction {l : List IWO} (P : St → St → Prop)
    (h0 : ∀ s, memRead s.mem s.ptr = 0 → P s s)
    (h1 : ∀ s s₁ s', memRead s.mem s.ptr ≠ 0 → Execs l s s₁ → LoopExec l s₁ s' →
      P s₁ s' → P s s')
    {s s' : St} (h : LoopExec l s s') : P s s' := by
  suffices haux : ∀ f t t', loopGo f l t = some t' → P t t' by
    obtain ⟨f, hf⟩ := h
    exact haux f s s' hf
  intro f
  induction f with
  | zero =>
    intro t t' hf
    rw [loopGo_zero] at hf
    by_cases hc : memRead t.mem t.ptr = 0
    · rw [if_pos hc] at hf; cases hf; exact h0 t hc
    · rw [if_neg hc] at hf; exact absurd hf (by simp)
  | succ f ih =>
    intro t t' hf
    rw [loopGo_succ] at hf
    by_cases hc : memRead t.mem t.ptr = 0
    · rw [if_pos hc] at hf; cases hf; exact h0 t hc
    · rw [if_neg hc] at hf
      cases hb : bodyGo f l t with
      | none => rw [hb] at hf; exact absurd hf (by simp)
      | some s₁ =>
        rw [hb] at hf
        exact h1 t s₁ t' hc ⟨f, hb⟩ ⟨f, hf⟩ (ih s₁ t' hf)

theorem checkedIdx_lt {p : Nat} {o : Int} {i : Nat} (h : checkedIdx p o = some i) :
    i < USIZE ∧ (i : Int) = (p : Int) + o := by
  unfold checkedIdx at h
  split at h
  · rename_i hcond
    cases h
    exact ⟨hcond.2, by omega⟩
  · exact absurd h (by simp)

theorem checkedIdx_of_bounds {p : Nat} {o : Int} (h1 : 0 ≤ (p : Int) + o)
    (h2 : (p : Int) + o < (USIZE : Int)) :
    checkedIdx p o = some ((p : Int) + o).toNat := by
  unfold checkedIdx
  rw [if_pos ⟨h1, by omega⟩]

theorem cellsWF_memWrite {m : List Nat} (h : cellsWF m) (i v : Nat) :
    cellsWF (memWrite m i v) := by
  intro w hw
  unfold memWrite at hw
  simp only at hw
  rcases List.mem_or_eq_of_mem_set hw with hw' | hv
  · split at hw'
    · rcases List.mem_append.1 hw' with h1 | h2
      · exact h _ h1
      · rw [List.eq_of_mem_replicate h2]; omega
    · exact h _ hw'
  · rw [hv]; exact Nat.mod_lt _ (by omega)

theorem memRead_lt_of_cellsWF {m : List Nat} (h : cellsWF m) (i : Nat) :
    memRead m i < 256 := by
  rcases Nat.lt_or_ge i m.length with hi | hi
  · rw [memRead_def, List.getD_eq_getElem?_getD, List.getElem?_eq_getElem hi]
    exact h _ (List.getElem_mem hi)
  · rw [memRead_oob hi]; omega

theorem execOne_WF {i : IWO} {s s' : St} (hwf : WF s) (h : execOne i s = some s') :
    WF s' := by
  obtain ⟨hp, hc⟩ := hwf
  cases i with
  | AddI ofs x =>
    simp only [execOne] at h
    cases hidx : checkedIdx s.ptr ofs with
    | none => rw [hidx] at h; exact absurd h (by simp)
    | some j => rw [hidx] at h; cases h; exact ⟨hp, cellsWF_memWrite hc _ _⟩
  | MovePtr x =>
    simp only [execOne] at h
    cases hidx : checkedIdx s.ptr x with
    | none => rw [hidx] at h; exact absurd h (by simp)
    | some j => rw [hidx] at h; cases h; exact ⟨(checkedIdx_lt hidx).1, hc⟩
  | Init ofs x =>
    simp only [execOne] at h
    cases h
    exact ⟨hp, cellsWF_memWrite hc _ _⟩
  | AddMul o1 o2 x =>
    simp only [execOne] at h
    cases hidx : checkedIdx s.ptr o1 with
    | none => rw [hidx] at h; exact absurd h (by simp)
    | some j1 =>
      rw [hidx] at h
      cases hidx2 : checkedIdx s.ptr o2 with
      | none => rw [hidx2] at h; exact absurd h (by simp)
      | some j2 => rw [hidx2] at h; cases h; exact ⟨hp, cellsWF_memWrite hc _ _⟩
  | GetChar ofs =>
    simp only [execOne] at h
    cases hidx : checkedIdx s.ptr ofs with
    | none => rw [hidx] at h; exact absurd h (by simp)
    | some j =>
      rw [hidx] at h
      cases hinp : s.inp with
      | nil => rw [hinp] at h; exact absurd h (by simp)
      | cons b rest => rw [hinp] at h; cases h; exact ⟨hp, cellsWF_memWrite hc _ _⟩
  | PutChar ofs =>
    simp only [execOne] at h
    cases hidx : checkedIdx s.ptr ofs with
    | none => rw [hidx] at h; exact absurd h (by simp)
    | some j => rw [hidx] at h; cases h; exact ⟨hp, hc⟩
  | Loop l => exact absurd h (by simp [execOne])

theorem go_WF (f : Nat) :
    (∀ insts s r, WF s → bodyGo f insts s = some r → WF r) ∧
    (∀ l s r, WF s → loopGo f l s = some r → WF r) := by
  induction f with
  | zero =>
    have hq : ∀ l s r, WF s → loopGo 0 l s = some r → WF r := by
      intro l s r hwf h
      rw [loopGo_zero] at h
      by_cases hc : memRead s.mem s.ptr = 0
      · rw [if_pos hc] at h; cases h; exact hwf
      · rw [if_neg hc] at h; exact absurd h (by simp)
    refine ⟨?_, hq⟩
    intro insts
    induction insts with
    | nil => intro s r hwf h; rw [bodyGo_nil] at h; cases h; exact hwf
    | cons i rest ih =>
      intro s r hwf h
      rw [bodyGo_cons] at h
      cases hstep : stepGo 0 i s with
      | none => rw [hstep] at h; exact absurd h (by simp)
      | some s₁ =>
        rw [hstep] at h
        have hwf₁ : WF s₁ := by
          cases i <;> simp only [stepGo] at hstep
          case Loop l => exact hq l s s₁ hwf hstep
          all_goals exact execOne_WF hwf hstep
        exact ih s₁ r hwf₁ h
  | succ f ihf =>
    obtain ⟨ihb, ihl⟩ := ihf
    have hq : ∀ l s r, WF s → loopGo (f + 1) l s = some r → WF r := by
      intro l s r hwf h
      rw [loopGo_succ] at h
      by_cases hc : memRead s.mem s.ptr = 0
      · rw [if_pos hc] at h; cases h; exact hwf
      · rw [if_neg hc] at h
        cases hb : bodyGo f l s with
        | none => rw [hb] at h; exact absurd h (by simp)
        | some s₁ =>
          rw [hb] at h
          exact ihl l s₁ r (ihb l s s₁ hwf hb) h
    refine ⟨?_, hq⟩
    intro insts
    induction insts with
    | nil => intro s r hwf h; rw [bodyGo_nil] at h; cases h; exact hwf
    | cons i rest ih =>
      intro s r hwf h
      rw [bodyGo_cons] at h
      cases hstep : stepGo (f + 1) i s with
      | none => rw [hstep] at h; exact absurd h (by simp)
      | some s₁ =>
        rw [hstep] at h
        have hwf₁ : WF s₁ := by
          cases i <;> simp only [stepGo] at hstep
          case Loop l => exact hq l s s₁ hwf hstep
          all_goals exact execOne_WF hwf hstep
        exact ih s₁ r hwf₁ h

theorem Execs_WF {insts : List IWO} {s r : St} (hwf : WF s) (h : Execs insts s r) :
    WF r := by
  obtain ⟨f, hf⟩ := h
  exact (go_WF f).1 insts s r hwf hf

theorem LoopExec_WF {l : List IWO} {s r : St} (hwf : WF s) (h : LoopExec l s r) :
    WF r := by
  obtain ⟨f, hf⟩ := h
  exact (go_WF f).2 l s r hwf hf

theorem initSt_WF (input : List Nat) : WF (initSt input) := by
  constructor
  · show (0 : Nat) < USIZE
    unfold USIZE
    positivity
  · intro v hv
    rw [List.eq_of_mem_replicate hv]
    omega

theorem stEquiv_refl (s : St) : stEquiv s s :=
  ⟨fun _ => rfl, rfl, rfl, rfl⟩

theorem stEquiv_symm {s t : St} (h : stEquiv s t) : stEquiv t s :=
  ⟨fun i => (h.1 i).symm, h.2.1.symm, h.2.2.1.symm, h.2.2.2.symm⟩

theorem stEquiv_trans {s t u : St} (h1 : stEquiv s t) (h2 : stEquiv t u) : stEquiv s u :=
  ⟨fun i => (h1.1 i).trans (h2.1 i), h1.2.1.trans h2.2.1,
    h1.2.2.1.trans h2.2.2.1, h1.2.2.2.trans h2.2.2.2⟩

theorem memWrite_reads_congr {m₁ m₂ : List Nat} (h : ∀ j, memRead m₁ j = memRead m₂ j)
    (i v : Nat) : ∀ j, memRead (memWrite m₁ i v) j = memRead (memWrite m₂ i v) j := by
  intro j
  by_cases hj : j = i
  · subst hj
    rw [memRead_memWrite_self, memRead_memWrite_self]
  · rw [memRead_memWrite_ne _ hj, memRead_memWrite_ne _ hj]
    exact h j

theorem execOne_congr {i : IWO} {s t s' : St} (he : stEquiv s t)
    (h : execOne i s = some s') :
    ∃ t', execOne i t = some t' ∧ stEquiv s' t' := by
  obtain ⟨hm, hp, hin, hout⟩ := he
  cases i with
  | AddI ofs x =>
    simp only [execOne] at h ⊢
    cases hidx : checkedIdx s.ptr ofs with
    | none => rw [hidx] at h; exact absurd h (by simp)
    | some j =>
      rw [hidx] at h
      cases h
      rw [hp] at hidx
      rw [hidx]
      exact ⟨_, rfl, by
        refine ⟨?_, hp, hin, hout⟩
        rw [hm j]
        exact memWrite_reads_congr hm j _⟩
  | MovePtr x =>
    simp only [execOne] at h ⊢
    cases hidx : checkedIdx s.ptr x with
    | none => rw [hidx] at h; exact absurd h (by simp)
    | some j =>
      rw [hidx] at h
      cases h
      rw [hp] at hidx
      rw [hidx]
      exact ⟨_, rfl, hm, rfl, hin, hout⟩
  | Init ofs x =>
    simp only [execOne] at h
    cases h
    rw [show execOne (IWO.Init ofs x) t =
      some { t with mem := memWrite t.mem (wrapIdx t.ptr ofs) x } from rfl]
    refine ⟨_, rfl, ?_, hp, hin, hout⟩
    rw [hp]
    exact memWrite_reads_congr hm _ _
  | AddMul o1 o2 x =>
    simp only [execOne] at h ⊢
    cases hidx : checkedIdx s.ptr o1 with
    | none => rw [hidx] at h; exact absurd h (by simp)
    | some j1 =>
      rw [hidx] at h
      cases hidx2 : checkedIdx s.ptr o2 with
      | none => rw [hidx2] at h; exact absurd h (by simp)
      | some j2 =>
        rw [hidx2] at h
        cases h
        rw [hp] at hidx hidx2
        rw [hidx, hidx2]
        refine ⟨_, rfl, ?_, hp, hin, hout⟩
        rw [hm j1, hm j2]
        exact memWrite_reads_congr hm j2 _
  | GetChar ofs =>
    simp only [execOne] at h ⊢
    cases hidx : checkedIdx s.ptr ofs with
    | none => rw [hidx] at h; exact absurd h (by simp)
    | some j =>
      rw [hidx] at h
      cases hinp : s.inp with
      | nil => rw [hinp] at h; exact absurd h (by simp)
      | cons b rest =>
        rw [hinp] at h
        cases h
        rw [hp] at hidx
        rw [hidx, ← hin, hinp]
        exact ⟨_, rfl, memWrite_reads_congr hm j b, hp, rfl, hout⟩
  | PutChar ofs =>
    simp only [execOne] at h ⊢
    cases hidx : checkedIdx s.ptr ofs with
    | none => rw [hidx] at h; exact absurd h (by simp)
    | some j =>
      rw [hidx] at h
      cases h
      rw [hp] at hidx
      rw [hidx]
      refine ⟨_, rfl, hm, hp, hin, ?_⟩
      rw [hout, hm j]
  | Loop l => exact absurd h (by simp [execOne])

theorem go_congr (f : Nat) :
    (∀ insts s t r, stEquiv s t → bodyGo f insts s = some r →
      ∃ r', bodyGo f insts t = some r' ∧ stEquiv r r') ∧
    (∀ l s t r, stEquiv s t → loopGo f l s = some r →
      ∃ r', loopGo f l t = some r' ∧ stEquiv r r') := by
  induction f with
  | zero =>
    have hq : ∀ l s t r, stEquiv s t → loopGo 0 l s = some r →
        ∃ r', loopGo 0 l t = some r' ∧ stEquiv r r' := by
      intro l s t r he h
      rw [loopGo_zero] at h ⊢
      rw [← he.1, ← he.2.1]
      by_cases hc : memRead s.mem s.ptr = 0
      · rw [if_pos hc] at h ⊢; cases h; exact ⟨t, rfl, he⟩
      · rw [if_neg hc] at h; exact absurd h (by simp)
    refine ⟨?_, hq⟩
    intro insts
    induction insts with
    | nil =>
      intro s t r he h
      rw [bodyGo_nil] at h ⊢
      cases h
      exact ⟨t, rfl, he⟩
    | cons i rest ih =>
      intro s t r he h
      rw [bodyGo_cons] at h ⊢
      cases hstep : stepGo 0 i s with
      | none => rw [hstep] at h; exact absurd h (by simp)
      | some s₁ =>
        rw [hstep] at h
        have hnext : ∃ t₁, stepGo 0 i t = some t₁ ∧ stEquiv s₁ t₁ := by
          cases i <;> simp only [stepGo] at hstep ⊢
          case Loop l => exact hq l s t s₁ he hstep
          all_goals exact execOne_congr he hstep
        obtain ⟨t₁, ht₁, he₁⟩ := hnext
        rw [ht₁]
        exact ih s₁ t₁ r he₁ h
  | succ f ihf =>
    obtain ⟨ihb, ihl⟩ := ihf
    have hq : ∀ l s t r, stEquiv s t → loopGo (f + 1) l s = some r →
        ∃ r', loopGo (f + 1) l t = some r' ∧ stEquiv r r' := by
      intro l s t r he h
      rw [loopGo_succ] at h ⊢
      rw [show memRead t.mem t.ptr = memRead s.mem s.ptr by rw [← he.1, ← he.2.1]]
      by_cases hc : memRead s.mem s.ptr = 0
      · rw [if_pos hc] at h ⊢; cases h; exact ⟨t, rfl, he⟩
      · rw [if_neg hc] at h ⊢
        cases hb : bodyGo f l s with
        | none => rw [hb] at h; exact absurd h (by simp)
        | some s₁ =>
          rw [hb] at h
          obtain ⟨t₁, ht₁, he₁⟩ := ihb l s t s₁ he hb
          rw [ht₁]
          exact ihl l s₁ t₁ r he₁ h
    refine ⟨?_, hq⟩
    intro insts
    induction insts with
    | nil =>
      intro s t r he h
      rw [bodyGo_nil] at h ⊢
      cases h
      exact ⟨t, rfl, he⟩
    | cons i rest ih =>
      intro s t r he h
      rw [bodyGo_cons] at h ⊢
      cases hstep : stepGo (f + 1) i s with
      | none => rw [hstep] at h; exact absurd h (by simp)
      | some s₁ =>
        rw [hstep] at h
        have hnext : ∃ t₁, stepGo (f + 1) i t = some t₁ ∧ stEquiv s₁ t₁ := by
          cases i <;> simp only [stepGo] at hstep ⊢
          case Loop l => exact hq l s t s₁ he hstep
          all_goals exact execOne_congr he hstep
        obtain ⟨t₁, ht₁, he₁⟩ := hnext
        rw [ht₁]
        exact ih s₁ t₁ r he₁ h

theorem Execs_congr {insts : List IWO} {s t r : St} (he : stEquiv s t)
    (h : Execs insts s r) : ∃ r', Execs insts t r' ∧ stEquiv r r' := by
  obtain ⟨f, hf⟩ := h
  obtain ⟨r', h1, h2⟩ := (go_congr f).1 insts s t r he hf
  exact ⟨r', ⟨f, h1⟩, h2⟩

theorem LoopExec_congr {l : List IWO} {s t r : St} (he : stEquiv s t)
    (h : LoopExec l s r) : ∃ r', LoopExec l t r' ∧ stEquiv r r' := by
  obtain ⟨f, hf⟩ := h
  obtain ⟨r', h1, h2⟩ := (go_congr f).2 l s t r he hf
  exact ⟨r', ⟨f, h1⟩, h2⟩

theorem stepGo_mono {f f' : Nat} (hle : f ≤ f') {i : IWO} {s s₁ : St}
    (h : stepGo f i s = some s₁) : stepGo f' i s = some s₁ := by
  cases i <;> simp only [stepGo] at h ⊢
  case Loop l => exact loopGo_mono hle h
  all_goals exact h

theorem stepGo_WF {f : Nat} {i : IWO} {s s₁ : St} (hwf : WF s)
    (h : stepGo f i s = some s₁) : WF s₁ := by
  cases i <;> simp only [stepGo] at h
  case Loop l => exact LoopExec_WF hwf ⟨f, h⟩
  all_goals exact execOne_WF hwf h

theorem stepGo_congr {f : Nat} {i : IWO} {s t s₁ : St} (he : stEquiv s t)
    (h : stepGo f i s = some s₁) :
    ∃ t₁, stepGo f i t = some t₁ ∧ stEquiv s₁ t₁ := by
  cases i <;> simp only [stepGo] at h ⊢
  case Loop l => exact (go_congr f).2 l s t s₁ he h
  all_goals exact execOne_congr he h

theorem Execs_cons_step {i : IWO} {rest : List IWO} {s s₁ s' : St} {f : Nat}
    (h1 : stepGo f i s = some s₁) (h2 : Execs rest s₁ s') : Execs (i :: rest) s s' := by
  obtain ⟨f2, hf2⟩ := h2
  refine ⟨max f f2, ?_⟩
  rw [bodyGo_cons, stepGo_mono (Nat.le_max_left f f2) h1]
  exact bodyGo_mono (Nat.le_max_right f f2) hf2

theorem Execs_cons_inv_step {i : IWO} {rest : List IWO} {s s' : St}
    (h : Execs (i :: rest) s s') :
    ∃ s₁ f, stepGo f i s = some s₁ ∧ Execs rest s₁ s' := by
  obtain ⟨f, hf⟩ := h
  rw [bodyGo_cons] at hf
  cases hstep : stepGo f i s with
  | none => rw [hstep] at hf; exact absurd hf (by simp)
  | some s₁ =>
    rw [hstep] at hf
    exact ⟨s₁, f, hstep, ⟨f, hf⟩⟩

theorem LoopExec_sim {l l' : List IWO} (hsim : SimE l l') {s s' : St} (hwf : WF s)
    (h : LoopExec l s s') : ∃ s'', LoopExec l' s s'' ∧ stEquiv s'' s' := by
  refine LoopExec_induction (fun a b => WF a → ∃ b', LoopExec l' a b' ∧ stEquiv b' b)
    ?_ ?_ h hwf
  · intro a ha _
    exact ⟨a, LoopExec_zero ha, stEquiv_refl a⟩
  · intro a a₁ a' hcell hexec _ ihp hwfa
    obtain ⟨t₁, ht₁, het₁⟩ := hsim a a₁ hwfa hexec
    obtain ⟨a₂, ha₂, hea₂⟩ := ihp (Execs_WF hwfa hexec)
    obtain ⟨t₂, ht₂, het₂⟩ := LoopExec_congr (stEquiv_symm het₁) ha₂
    refine ⟨t₂, LoopExec_iter hcell ht₁ ht₂, ?_⟩
    exact stEquiv_trans (stEquiv_symm het₂) hea₂

theorem SimE_refl (xs : List IWO) : SimE xs xs :=
  fun _ s' _ h => ⟨s', h, stEquiv_refl s'⟩

theorem SimE_trans {xs ys zs : List IWO} (h1 : SimE xs ys) (h2 : SimE ys zs) :
    SimE xs zs := by
  intro s s' hwf h
  obtain ⟨s₁, hy, he₁⟩ := h1 s s' hwf h
  obtain ⟨s₂, hz, he₂⟩ := h2 s s₁ hwf hy
  exact ⟨s₂, hz, stEquiv_trans he₂ he₁⟩

theorem SimE_append {xs ys xs' ys' : List IWO} (h1 : SimE xs ys) (h2 : SimE xs' ys') :
    SimE (xs ++ xs') (ys ++ ys') := by
  intro s s' hwf h
  obtain ⟨s₁, ha, hb⟩ := Execs_append.1 h
  obtain ⟨t₁, hy, he₁⟩ := h1 s s₁ hwf ha
  obtain ⟨s₂, hx', he₂⟩ := h2 s₁ s' (Execs_WF hwf ha) hb
  obtain ⟨t₂, hy', he₃⟩ := Execs_congr (stEquiv_symm he₁) hx'
  refine ⟨t₂, Execs_append.2 ⟨t₁, hy, hy'⟩, ?_⟩
  exact stEquiv_trans (stEquiv_symm he₃) he₂

theorem SimE_cons_shared {i : IWO} {xs ys : List IWO} (hsim : SimE xs ys) :
    SimE (i :: xs) (i :: ys) := by
  intro s s' hwf h
  obtain ⟨s₁, f, hstep, hrest⟩ := Execs_cons_inv_step h
  obtain ⟨s'', hy, he⟩ := hsim s₁ s' (stepGo_WF hwf hstep) hrest
  exact ⟨s'', Execs_cons_step hstep hy, he⟩

theorem SimE_loop_cong {l l' : List IWO} (hsim : SimE l l') :
    SimE [IWO.Loop l] [IWO.Loop l'] := by
  intro s s' hwf h
  obtain ⟨s'', h1, h2⟩ := LoopExec_sim hsim hwf (Execs_singleton_loop.1 h)
  exact ⟨s'', Execs_singleton_loop.2 h1, h2⟩

theorem SimE_of_Execs_eq {xs ys : List IWO}
    (h : ∀ s s', WF s → Execs xs s s' → Execs ys s s') : SimE xs ys :=
  fun s s' hwf hx => ⟨s', h s s' hwf hx, stEquiv_refl s'⟩

theorem execOne_MovePtr_zero {s : St} (hwf : WF s) :
    execOne (IWO.MovePtr 0) s = some s := by
  have h1 : (0 : Int) ≤ (s.ptr : Int) + 0 := by positivity
  have h2 : (s.ptr : Int) + 0 < (USIZE : Int) := by
    rw [add_zero]
    exact_mod_cast hwf.1
  simp only [execOne]
  rw [checkedIdx_of_bounds h1 h2]
  rw [add_zero, Int.toNat_natCast]

/-- Dropping `MovePtr 0` preserves every terminating run. -/
theorem rzmp_sim : ∀ xs : List IWO, SimE xs (remove_zero_move_ptr xs) := by
  intro xs
  induction xs using remove_zero_move_ptr.induct with
  | case1 =>
    simp only [remove_zero_move_ptr]
    exact SimE_refl []
  | case2 x rest hx ih =>
    rw [remove_zero_move_ptr, if_pos hx]
    exact SimE_cons_shared ih
  | case3 x rest hx ih =>
    rw [remove_zero_move_ptr, if_neg hx]
    simp only [Decidable.not_not] at hx
    subst hx
    intro s s' hwf h
    obtain ⟨s₁, f, hstep, hrest⟩ := Execs_cons_inv_step h
    simp only [stepGo] at hstep
    rw [execOne_MovePtr_zero hwf] at hstep
    cases hstep
    exact ih s s' hwf hrest
  | case4 l rest ihl ih =>
    rw [remove_zero_move_ptr]
    exact @SimE_append [IWO.Loop l] _ _ _ (SimE_loop_cong ihl) ih
  | case5 i rest h1 h2 ih =>
    rw [remove_zero_move_ptr.eq_def]
    cases i <;> simp_all <;> exact SimE_cons_shared ih

theorem Execs_nil_inv {s s' : St} (h : Execs [] s s') : s' = s := by
  obtain ⟨f, hf⟩ := h
  rw [bodyGo_nil] at hf
  cases hf
  rfl

theorem checkedIdx_shift {p : Nat} {ofs : Int} (h : 0 ≤ (p : Int) + ofs) (o : Int) :
    checkedIdx (((p : Int) + ofs).toNat) o = checkedIdx p (o + ofs) := by
  unfold checkedIdx
  rw [show ((((p : Int) + ofs).toNat : Int)) + o = (p : Int) + (o + ofs) by omega]

theorem wrapIdx_shift {p : Nat} {ofs : Int} (h : 0 ≤ (p : Int) + ofs) (o : Int) :
    wrapIdx (((p : Int) + ofs).toNat) o = wrapIdx p (o + ofs) := by
  unfold wrapIdx
  rw [show ((((p : Int) + ofs).toNat : Int)) + o = (p : Int) + (o + ofs) by omega]

theorem shift_self (s : St) : { s with ptr := ((s.ptr : Int) + 0).toNat } = s := by
  cases s
  simp

theorem cast_ptr_lt {s : St} (hwf : WF s) : (s.ptr : Int) + 0 < (USIZE : Int) := by
  rw [add_zero]
  exact_mod_cast hwf.1

/-- Pointer-move deferral with pending offset `ofs` simulates running the
remaining input from the shifted pointer. -/
theorem delayGo_sim (ofs : Int) (xs : List IWO) :
    ∀ s s' : St, WF s → 0 ≤ (s.ptr : Int) + ofs → (s.ptr : Int) + ofs < (USIZE : Int) →
      Execs xs { s with ptr := ((s.ptr : Int) + ofs).toNat } s' →
      ∃ s'', Execs (delayGo ofs xs) s s'' ∧ stEquiv s'' s' := by
  induction ofs, xs using delayGo.induct with
  | case1 ofs hofs =>
    intro s s' hwf h0 h1 h
    rw [Execs_nil_inv h]
    rw [delayGo, if_pos hofs]
    refine ⟨_, Execs_cons_step (f := 0) ?_ (Execs_nil _), stEquiv_refl _⟩
    show execOne (IWO.MovePtr ofs) s = _
    simp only [execOne]
    rw [checkedIdx_of_bounds h0 h1]
  | case2 ofs hofs =>
    intro s s' hwf h0 h1 h
    rw [Execs_nil_inv h]
    simp only [Decidable.not_not] at hofs
    subst hofs
    rw [delayGo, if_neg (by simp), shift_self]
    exact ⟨s, Execs_nil s, stEquiv_refl s⟩
  | case3 ofs o x rest ih =>
    intro s s' hwf h0 h1 h
    obtain ⟨s₁, f, hstep, hrest⟩ := Execs_cons_inv_step h
    simp only [stepGo, execOne] at hstep
    rw [checkedIdx_shift h0 o] at hstep
    cases hidx : checkedIdx s.ptr (o + ofs) with
    | none => rw [hidx] at hstep; exact absurd hstep (by simp)
    | some j =>
      rw [hidx] at hstep
      cases hstep
      have hwf₂ : WF { s with mem := memWrite s.mem j (memRead s.mem j + x) } :=
        ⟨hwf.1, cellsWF_memWrite hwf.2 _ _⟩
      obtain ⟨s'', hex, he⟩ := ih { s with mem := memWrite s.mem j (memRead s.mem j + x) }
        s' hwf₂ h0 h1 hrest
      refine ⟨s'', ?_, he⟩
      rw [delayGo]
      refine Execs_cons_step (f := 0) ?_ hex
      show execOne (IWO.AddI (o + ofs) x) s = _
      simp only [execOne]
      rw [hidx]
  | case4 ofs x rest ih =>
    intro s s' hwf h0 h1 h
    obtain ⟨s₁, f, hstep, hrest⟩ := Execs_cons_inv_step h
    simp only [stepGo, execOne] at hstep
    rw [checkedIdx_shift h0 x] at hstep
    cases hidx : checkedIdx s.ptr (x + ofs) with
    | none => rw [hidx] at hstep; exact absurd hstep (by simp)
    | some q =>
      rw [hidx] at hstep
      cases hstep
      obtain ⟨hq1, hq2⟩ := checkedIdx_lt hidx
      have hq3 : q = ((s.ptr : Int) + (ofs + x)).toNat := by omega
      have hrest' : Execs rest { s with ptr := ((s.ptr : Int) + (ofs + x)).toNat } s' := by
        rw [← hq3]; exact hrest
      rw [delayGo]
      exact ih s s' hwf (by omega) (by omega) hrest'
  | case5 ofs o x rest ih =>
    intro s s' hwf h0 h1 h
    obtain ⟨s₁, f, hstep, hrest⟩ := Execs_cons_inv_step h
    simp only [stepGo, execOne] at hstep
    rw [wrapIdx_shift h0 o] at hstep
    cases hstep
    have hwf₂ : WF { s with mem := memWrite s.mem (wrapIdx s.ptr (o + ofs)) x } :=
      ⟨hwf.1, cellsWF_memWrite hwf.2 _ _⟩
    obtain ⟨s'', hex, he⟩ := ih { s with mem := memWrite s.mem (wrapIdx s.ptr (o + ofs)) x }
      s' hwf₂ h0 h1 hrest
    refine ⟨s'', ?_, he⟩
    rw [delayGo]
    refine Execs_cons_step (f := 0) ?_ hex
    show execOne (IWO.Init (o + ofs) x) s = _
    simp only [execOne]
  | case6 ofs o1 o2 x rest ih =>
    intro s s' hwf h0 h1 h
    obtain ⟨s₁, f, hstep, hrest⟩ := Execs_cons_inv_step h
    simp only [stepGo, execOne] at hstep
    rw [checkedIdx_shift h0 o1, checkedIdx_shift h0 o2] at hstep
    cases hidx1 : checkedIdx s.ptr (o1 + ofs) with
    | none => rw [hidx1] at hstep; exact absurd hstep (by simp)
    | some j1 =>
      rw [hidx1] at hstep
      cases hidx2 : checkedIdx s.ptr (o2 + ofs) with
      | none => rw [hidx2] at hstep; exact absurd hstep (by simp)
      | some j2 =>
        rw [hidx2] at hstep
        cases hstep
        have hwf₂ : WF { s with
            mem := memWrite s.mem j2 (memRead s.mem j2 + memRead s.mem j1 * x) } :=
          ⟨hwf.1, cellsWF_memWrite hwf.2 _ _⟩
        obtain ⟨s'', hex, he⟩ := ih { s with
            mem := memWrite s.mem j2 (memRead s.mem j2 + memRead s.mem j1 * x) }
          s' hwf₂ h0 h1 hrest
        refine ⟨s'', ?_, he⟩
        rw [delayGo]
        refine Execs_cons_step (f := 0) ?_ hex
        show execOne (IWO.AddMul (o1 + ofs) (o2 + ofs) x) s = _
        simp only [execOne]
        rw [hidx1, hidx2]
  | case7 ofs o rest ih =>
    intro s s' hwf h0 h1 h
    obtain ⟨s₁, f, hstep, hrest⟩ := Execs_cons_inv_step h
    simp only [stepGo, execOne] at hstep
    rw [checkedIdx_shift h0 o] at hstep
    cases hidx : checkedIdx s.ptr (o + ofs) with
    | none => rw [hidx] at hstep; exact absurd hstep (by simp)
    | some j =>
      rw [hidx] at hstep
      cases hinp : s.inp with
      | nil => rw [hinp] at hstep; exact absurd hstep (by simp)
      | cons b rest2 =>
        rw [hinp] at hstep
        cases hstep
        have hwf₂ : WF { s with mem := memWrite s.mem j b, inp := rest2 } :=
          ⟨hwf.1, cellsWF_memWrite hwf.2 _ _⟩
        obtain ⟨s'', hex, he⟩ := ih { s with mem := memWrite s.mem j b, inp := rest2 }
          s' hwf₂ h0 h1 hrest
        refine ⟨s'', ?_, he⟩
        rw [delayGo]
        refine Execs_cons_step (f := 0) ?_ hex
        show execOne (IWO.GetChar (o + ofs)) s = _
        simp only [execOne]
        rw [hidx, hinp]
  | case8 ofs o rest ih =>
    intro s s' hwf h0 h1 h
    obtain ⟨s₁, f, hstep, hrest⟩ := Execs_cons_inv_step h
    simp only [stepGo, execOne] at hstep
    rw [checkedIdx_shift h0 o] at hstep
    cases hidx : checkedIdx s.ptr (o + ofs) with
    | none => rw [hidx] at hstep; exact absurd hstep (by simp)
    | some j =>
      rw [hidx] at hstep
      cases hstep
      have hwf₂ : WF { s with out := s.out ++ [memRead s.mem j] } := ⟨hwf.1, hwf.2⟩
      obtain ⟨s'', hex, he⟩ := ih { s with out := s.out ++ [memRead s.mem j] }
        s' hwf₂ h0 h1 hrest
      refine ⟨s'', ?_, he⟩
      rw [delayGo]
      refine Execs_cons_step (f := 0) ?_ hex
      show execOne (IWO.PutChar (o + ofs)) s = _
      simp only [execOne]
      rw [hidx]
  | case9 ofs l rest ihl ih =>
    intro s s' hwf h0 h1 h
    obtain ⟨s₁, f, hstep, hrest⟩ := Execs_cons_inv_step h
    simp only [stepGo] at hstep
    have hwfsh : WF { s with ptr := ((s.ptr : Int) + ofs).toNat } := by
      refine ⟨?_, hwf.2⟩
      show (((s.ptr : Int) + ofs).toNat) < USIZE
      omega
    have hbody : SimE l (delayGo 0 l) := by
      intro t t' hwft ht
      refine ihl t t' hwft (by omega) (cast_ptr_lt hwft) ?_
      rw [shift_self]
      exact ht
    obtain ⟨t₁, ht₁, het₁⟩ := LoopExec_sim hbody hwfsh ⟨f, hstep⟩
    obtain ⟨r', hr', her'⟩ := Execs_congr (stEquiv_symm het₁) hrest
    have hwft₁ : WF t₁ := LoopExec_WF hwfsh ht₁
    obtain ⟨s'', hex, he⟩ := ih t₁ r' hwft₁ (by omega) (cast_ptr_lt hwft₁) (by
      rw [shift_self]; exact hr')
    refine ⟨s'', ?_, stEquiv_trans he (stEquiv_symm her')⟩
    rw [delayGo]
    refine Execs_cons_step (f := 0) ?_ (Execs_cons_loop ht₁ hex)
    show execOne (IWO.MovePtr ofs) s = _
    simp only [execOne]
    rw [checkedIdx_of_bounds h0 h1]

/-- `delay_move_ptr` simulates the annotated program. -/
theorem delay_sim (xs : List IWO) : SimE xs (delay_move_ptr xs) := by
  intro s s' hwf h
  refine delayGo_sim 0 xs s s' hwf (by omega) (cast_ptr_lt hwf) ?_
  rw [shift_self]
  exact h

/-! ### Multiply-loop strength reduction: semantic toolkit -/

theorem l2aScan_spec : ∀ (body : List IWO) (b : Nat) (acc : List (Int × Nat))
    (base : Nat) (adds : List (Int × Nat)), b < 256 →
    l2aScan body b acc = some (base, adds) →
    allAdds body ∧ base = (b + zeroSum (addPairs body)) % 256 ∧
      adds = acc ++ nzPairs (addPairs body) := by
  intro body
  induction body with
  | nil =>
    intro b acc base adds hb h
    simp only [l2aScan] at h
    cases h
    refine ⟨trivial, ?_, by simp [addPairs, nzPairs]⟩
    simp [addPairs, zeroSum, Nat.mod_eq_of_lt hb]
  | cons i rest ih =>
    intro b acc base adds hb h
    cases i with
    | AddI o x =>
      simp only [l2aScan] at h
      by_cases ho : o = 0
      · rw [if_pos ho] at h
        obtain ⟨h1, h2, h3⟩ := ih ((b + x) % 256) acc base adds (Nat.mod_lt _ (by omega)) h
        subst ho
        refine ⟨h1, ?_, by simpa [addPairs, nzPairs] using h3⟩
        rw [h2]
        simp only [addPairs, zeroSum]
        rw [if_pos trivial, Nat.mod_add_mod]
        omega
      · rw [if_neg ho] at h
        obtain ⟨h1, h2, h3⟩ := ih b (acc ++ [(o, x)]) base adds hb h
        refine ⟨h1, ?_, ?_⟩
        · rw [h2]
          simp [addPairs, zeroSum, if_neg ho]
        · rw [h3]
          simp [addPairs, nzPairs, if_neg ho]
    | MovePtr x => exact absurd h (by simp [l2aScan])
    | Init o x => exact absurd h (by simp [l2aScan])
    | AddMul o1 o2 x => exact absurd h (by simp [l2aScan])
    | GetChar o => exact absurd h (by simp [l2aScan])
    | PutChar o => exact absurd h (by simp [l2aScan])
    | Loop l => exact absurd h (by simp [l2aScan])

theorem loop_to_addmul_body_spec {body red : List IWO}
    (h : loop_to_addmul_body body = some red) :
    allAdds body ∧ zeroSum (addPairs body) % 256 = 255 ∧
      red = (nzPairs (addPairs body)).map (fun q => IWO.AddMul 0 q.1 q.2) ++
        [IWO.Init 0 0] := by
  unfold loop_to_addmul_body at h
  cases hscan : l2aScan body 0 [] with
  | none => rw [hscan] at h; exact absurd h (by simp)
  | some pr =>
    obtain ⟨base, adds⟩ := pr
    rw [hscan] at h
    obtain ⟨h1, h2, h3⟩ := l2aScan_spec body 0 [] base adds (by omega) hscan
    simp only at h
    by_cases hb : base = 255
    · rw [if_pos hb] at h
      cases h
      subst h3
      refine ⟨h1, ?_, by simp⟩
      rw [← hb, h2]
      simp
    · rw [if_neg hb] at h
      exact absurd h (by simp)

theorem checkedIdx_zero {p : Nat} (hp : p < USIZE) : checkedIdx p 0 = some p := by
  have h1 : (0 : Int) ≤ (p : Int) + 0 := by omega
  have h2 : (p : Int) + 0 < (USIZE : Int) := by
    rw [add_zero]
    exact_mod_cast hp
  rw [checkedIdx_of_bounds h1 h2, add_zero, Int.toNat_natCast]

theorem checkedIdx_ne_ptr {p j : Nat} {o : Int} (ho : o ≠ 0)
    (h : checkedIdx p o = some j) : j ≠ p := by
  obtain ⟨h1, h2⟩ := checkedIdx_lt h
  omega

theorem wrapIdx_zero {p : Nat} (hp : p < USIZE) : wrapIdx p 0 = p := by
  unfold wrapIdx
  rw [add_zero, Int.emod_eq_of_lt (by positivity) (by exact_mod_cast hp),
    Int.toNat_natCast]

theorem deltaAt_ptr (ps : List (Int × Nat)) {p : Nat} (hp : p < USIZE) :
    deltaAt ps p p = zeroSum ps := by
  induction ps with
  | nil => rfl
  | cons q rest ih =>
    obtain ⟨o, x⟩ := q
    simp only [deltaAt, zeroSum]
    rw [ih]
    congr 1
    by_cases ho : o = 0
    · subst ho
      rw [if_pos rfl, if_pos (checkedIdx_zero hp)]
    · rw [if_neg ho, if_neg ?hne]
      case hne =>
        intro hc
        exact checkedIdx_ne_ptr ho hc rfl

theorem deltaAt_nz (ps : List (Int × Nat)) {p i : Nat} (hne : i ≠ p) :
    deltaAt (nzPairs ps) p i = deltaAt ps p i := by
  induction ps with
  | nil => rfl
  | cons q rest ih =>
    obtain ⟨o, x⟩ := q
    by_cases ho : o = 0
    · subst ho
      simp only [nzPairs, deltaAt]
      rw [if_pos trivial, ih, if_neg ?hno, Nat.zero_add]
      case hno =>
        intro hc
        obtain ⟨_, h2⟩ := checkedIdx_lt hc
        omega
    · simp only [nzPairs, if_neg ho, deltaAt]
      rw [ih]

theorem Execs_det {xs : List IWO} {s a b : St} (h1 : Execs xs s a) (h2 : Execs xs s b) :
    a = b := by
  obtain ⟨f1, hf1⟩ := h1
  obtain ⟨f2, hf2⟩ := h2
  have h1' := bodyGo_mono (Nat.le_max_left f1 f2) hf1
  have h2' := bodyGo_mono (Nat.le_max_right f1 f2) hf2
  rw [h1'] at h2'
  cases h2'
  rfl

theorem LoopExec_det {l : List IWO} {s a b : St} (h1 : LoopExec l s a)
    (h2 : LoopExec l s b) : a = b := by
  obtain ⟨f1, hf1⟩ := h1
  obtain ⟨f2, hf2⟩ := h2
  have h1' := loopGo_mono (Nat.le_max_left f1 f2) hf1
  have h2' := loopGo_mono (Nat.le_max_right f1 f2) hf2
  rw [h1'] at h2'
  cases h2'
  rfl

theorem LoopExec_zero_inv {l : List IWO} {s sf : St} (hc : memRead s.mem s.ptr = 0)
    (h : LoopExec l s sf) : sf = s := by
  obtain ⟨f, hf⟩ := h
  cases f with
  | zero => rw [loopGo_zero, if_pos hc] at hf; cases hf; rfl
  | succ f => rw [loopGo_succ, if_pos hc] at hf; cases hf; rfl

theorem LoopExec_ne_inv {l : List IWO} {s sf : St} (hc : memRead s.mem s.ptr ≠ 0)
    (h : LoopExec l s sf) : ∃ s₁, Execs l s s₁ ∧ LoopExec l s₁ sf := by
  obtain ⟨f, hf⟩ := h
  cases f with
  | zero => rw [loopGo_zero, if_neg hc] at hf; exact absurd hf (by simp)
  | succ f =>
    rw [loopGo_succ, if_neg hc] at hf
    cases hb : bodyGo f l s with
    | none => rw [hb] at hf; exact absurd hf (by simp)
    | some s₁ =>
      rw [hb] at hf
      exact ⟨s₁, ⟨f, hb⟩, ⟨f, hf⟩⟩

theorem addBody_valid (body : List IWO) : ∀ {s s₁ : St}, allAdds body →
    Execs body s s₁ → ∀ q ∈ addPairs body, (checkedIdx s.ptr q.1).isSome := by
  induction body with
  | nil => intro s s₁ _ _ q hq; exact absurd hq (by simp [addPairs])
  | cons i rest ih =>
    intro s s₁ hall hex q hq
    cases i with
    | AddI o x =>
      obtain ⟨s₂, f, hstep, hrest⟩ := Execs_cons_inv_step hex
      simp only [stepGo, execOne] at hstep
      cases hidx : checkedIdx s.ptr o with
      | none => rw [hidx] at hstep; exact absurd hstep (by simp)
      | some j =>
        rw [hidx] at hstep
        cases hstep
        simp only [addPairs] at hq
        rcases List.mem_cons.1 hq with hq1 | hq2
        · subst hq1; simp [hidx]
        · exact ih hall hrest q hq2
    | MovePtr x => exact absurd hall (by simp [allAdds])
    | Init o x => exact absurd hall (by simp [allAdds])
    | AddMul o1 o2 x => exact absurd hall (by simp [allAdds])
    | GetChar o => exact absurd hall (by simp [allAdds])
    | PutChar o => exact absurd hall (by simp [allAdds])
    | Loop l => exact absurd hall (by simp [allAdds])

theorem addBody_run (body : List IWO) :
    ∀ s : St, WF s → allAdds body →
    (∀ q ∈ addPairs body, (checkedIdx s.ptr q.1).isSome) →
    ∃ t, Execs body s t ∧ t.ptr = s.ptr ∧ t.inp = s.inp ∧ t.out = s.out ∧
      (∀ i, memRead t.mem i = (memRead s.mem i + deltaAt (addPairs body) s.ptr i) % 256) := by
  induction body with
  | nil =>
    intro s hwf _ _
    refine ⟨s, Execs_nil s, rfl, rfl, rfl, fun i => ?_⟩
    show memRead s.mem i = (memRead s.mem i + deltaAt [] s.ptr i) % 256
    rw [show deltaAt [] s.ptr i = 0 from rfl, Nat.add_zero,
      Nat.mod_eq_of_lt (memRead_lt_of_cellsWF hwf.2 i)]
  | cons i rest ih =>
    intro s hwf hall hval
    cases i with
    | AddI o x =>
      have hv0 : (checkedIdx s.ptr o).isSome := hval (o, x) (by simp [addPairs])
      cases hidx : checkedIdx s.ptr o with
      | none => rw [hidx] at hv0; exact absurd hv0 (by simp)
      | some j =>
        set s₂ : St := { s with mem := memWrite s.mem j (memRead s.mem j + x) } with hs₂
        have hwf₂ : WF s₂ := ⟨hwf.1, cellsWF_memWrite hwf.2 _ _⟩
        have hval₂ : ∀ q ∈ addPairs rest, (checkedIdx s₂.ptr q.1).isSome := by
          intro q hq
          exact hval q (by simp [addPairs, hq])
        obtain ⟨t, hex, hptr, hinp, hout, hreads⟩ := ih s₂ hwf₂ hall hval₂
        refine ⟨t, ?_, hptr, hinp, hout, fun i => ?_⟩
        · refine Execs_cons_step (f := 0) ?_ hex
          show execOne (IWO.AddI o x) s = some s₂
          simp only [execOne]
          rw [hidx]
        · rw [hreads i]
          show _ = (memRead s.mem i + deltaAt ((o, x) :: addPairs rest) s.ptr i) % 256
          simp only [deltaAt]
          by_cases hij : i = j
          · subst hij
            rw [if_pos hidx]
            show (memRead (memWrite s.mem i (memRead s.mem i + x)) i + _) % 256 = _
            rw [memRead_memWrite_self]
            omega
          · rw [if_neg (by rw [hidx]; intro hc; cases hc; exact hij rfl)]
            show (memRead (memWrite s.mem j (memRead s.mem j + x)) i + _) % 256 = _
            rw [memRead_memWrite_ne _ hij]
            omega
    | MovePtr x => exact absurd hall (by simp [allAdds])
    | Init o x => exact absurd hall (by simp [allAdds])
    | AddMul o1 o2 x => exact absurd hall (by simp [allAdds])
    | GetChar o => exact absurd hall (by simp [allAdds])
    | PutChar o => exact absurd hall (by simp [allAdds])
    | Loop l => exact absurd hall (by simp [allAdds])

/-- Naive execution of a qualifying multiply-loop: from counter `c` it
terminates with the counter zeroed and `c` times the per-iteration delta
accumulated into every other cell. -/
theorem addLoop_run (body : List IWO) (hall : allAdds body)
    (hbase : zeroSum (addPairs body) % 256 = 255) :
    ∀ (c : Nat) (s : St), WF s → memRead s.mem s.ptr = c →
    (∀ q ∈ addPairs body, (checkedIdx s.ptr q.1).isSome) →
    ∃ t, LoopExec body s t ∧ t.ptr = s.ptr ∧ t.inp = s.inp ∧ t.out = s.out ∧
      (∀ i, memRead t.mem i =
        if i = s.ptr then 0
        else (memRead s.mem i + c * deltaAt (addPairs body) s.ptr i) % 256) := by
  intro c
  induction c with
  | zero =>
    intro s hwf hc hval
    refine ⟨s, LoopExec_zero hc, rfl, rfl, rfl, fun i => ?_⟩
    by_cases hi : i = s.ptr
    · rw [if_pos hi, hi, hc]
    · rw [if_neg hi, Nat.zero_mul, Nat.add_zero,
        Nat.mod_eq_of_lt (memRead_lt_of_cellsWF hwf.2 i)]
  | succ c ih =>
    intro s hwf hc hval
    obtain ⟨t₁, hrun, hptr, hinp, hout, hreads⟩ := addBody_run body s hwf hall hval
    have hwft₁ : WF t₁ := Execs_WF hwf hrun
    have hcnt : memRead t₁.mem t₁.ptr = c := by
      rw [hptr, hreads s.ptr, hc, deltaAt_ptr _ hwf.1]
      have hclt : c + 1 < 256 := by
        rw [← hc]
        exact memRead_lt_of_cellsWF hwf.2 s.ptr
      omega
    have hval₁ : ∀ q ∈ addPairs body, (checkedIdx t₁.ptr q.1).isSome := by
      rw [hptr]; exact hval
    obtain ⟨t, hloop, hptr', hinp', hout', hreads'⟩ := ih t₁ hwft₁ hcnt hval₁
    refine ⟨t, LoopExec_iter (by rw [hc]; omega) hrun hloop,
      by rw [hptr', hptr], by rw [hinp', hinp], by rw [hout', hout], fun i => ?_⟩
    rw [hreads' i, hptr]
    by_cases hi : i = s.ptr
    · rw [if_pos hi, if_pos hi]
    · rw [if_neg hi, if_neg hi, hreads i]
      rw [Nat.succ_mul]
      omega

/-- Execution of the generated `AddMul` block: the counter cell is
untouched and every other cell accumulates `counter × delta`. -/
theorem addMuls_run (ps : List (Int × Nat)) :
    ∀ s : St, WF s →
    (∀ q ∈ ps, (checkedIdx s.ptr q.1).isSome) → (∀ q ∈ ps, q.1 ≠ 0) →
    ∃ t, Execs (ps.map fun q => IWO.AddMul 0 q.1 q.2) s t ∧ t.ptr = s.ptr ∧
      t.inp = s.inp ∧ t.out = s.out ∧ memRead t.mem s.ptr = memRead s.mem s.ptr ∧
      (∀ i, i ≠ s.ptr → memRead t.mem i =
        (memRead s.mem i + memRead s.mem s.ptr * deltaAt ps s.ptr i) % 256) := by
  induction ps with
  | nil =>
    intro s hwf _ _
    refine ⟨s, Execs_nil s, rfl, rfl, rfl, rfl, fun i hi => ?_⟩
    show memRead s.mem i = (memRead s.mem i + memRead s.mem s.ptr * deltaAt [] s.ptr i) % 256
    rw [show deltaAt [] s.ptr i = 0 from rfl, Nat.mul_zero, Nat.add_zero,
      Nat.mod_eq_of_lt (memRead_lt_of_cellsWF hwf.2 i)]
  | cons q rest ih =>
    intro s hwf hval hnz
    obtain ⟨o, x⟩ := q
    have hv0 : (checkedIdx s.ptr o).isSome := hval (o, x) (by simp)
    have ho : o ≠ 0 := hnz (o, x) (by simp)
    cases hidx : checkedIdx s.ptr o with
    | none => rw [hidx] at hv0; exact absurd hv0 (by simp)
    | some j =>
      have hj : j ≠ s.ptr := checkedIdx_ne_ptr ho hidx
      set s₂ : St :=
        { s with mem := memWrite s.mem j (memRead s.mem j + memRead s.mem s.ptr * x) }
        with hs₂
      have hwf₂ : WF s₂ := ⟨hwf.1, cellsWF_memWrite hwf.2 _ _⟩
      have hcnt₂ : memRead s₂.mem s.ptr = memRead s.mem s.ptr := by
        show memRead (memWrite s.mem j _) s.ptr = _
        rw [memRead_memWrite_ne _ (fun hc => hj hc.symm)]
      obtain ⟨t, hex, hptr, hinp, hout, hcnt, hreads⟩ := ih s₂ hwf₂
        (fun q hq => hval q (by simp [hq])) (fun q hq => hnz q (by simp [hq]))
      refine ⟨t, ?_, hptr, hinp, hout, by rw [hcnt, hcnt₂], fun i hi => ?_⟩
      · refine Execs_cons_step (f := 0) ?_ hex
        show execOne (IWO.AddMul 0 o x) s = some s₂
        simp only [execOne]
        rw [checkedIdx_zero hwf.1, hidx]
      · rw [hreads i hi, hcnt₂]
        show _ = (memRead s.mem i +
          memRead s.mem s.ptr * deltaAt ((o, x) :: rest) s.ptr i) % 256
        simp only [deltaAt]
        by_cases hij : i = j
        · subst hij
          rw [if_pos hidx]
          show (memRead (memWrite s.mem i _) i + _) % 256 = _
          rw [memRead_memWrite_self, Nat.mul_add]
          omega
        · rw [if_neg (by rw [hidx]; intro hc; cases hc; exact hij rfl)]
          show (memRead (memWrite s.mem j _) i + _) % 256 = _
          rw [memRead_memWrite_ne _ hij, Nat.mul_add, Nat.mul_zero]
          omega

theorem nzPairs_subset (ps : List (Int × Nat)) : ∀ q ∈ nzPairs ps, q ∈ ps := by
  induction ps with
  | nil => intro q hq; exact absurd hq (by simp [nzPairs])
  | cons r rest ih =>
    obtain ⟨o, x⟩ := r
    intro q hq
    by_cases ho : o = 0
    · subst ho
      simp only [nzPairs] at hq
      rw [if_pos trivial] at hq
      exact List.mem_cons_of_mem _ (ih q hq)
    · simp only [nzPairs, if_neg ho] at hq
      rcases List.mem_cons.1 hq with h1 | h2
      · simp [h1]
      · exact List.mem_cons_of_mem _ (ih q h2)

theorem nzPairs_ne_zero (ps : List (Int × Nat)) : ∀ q ∈ nzPairs ps, q.1 ≠ 0 := by
  induction ps with
  | nil => intro q hq; exact absurd hq (by simp [nzPairs])
  | cons r rest ih =>
    obtain ⟨o, x⟩ := r
    intro q hq
    by_cases ho : o = 0
    · subst ho
      simp only [nzPairs] at hq
      rw [if_pos trivial] at hq
      exact ih q hq
    · simp only [nzPairs, if_neg ho] at hq
      rcases List.mem_cons.1 hq with h1 | h2
      · rw [h1]; exact ho
      · exact ih q h2

/-- Execution of a full strength-reduced body (`AddMul`s then
`Init(0,0)`): counter zeroed, other cells bumped by `counter × delta`. -/
theorem reduced_run {body red : List IWO} (hred : loop_to_addmul_body body = some red)
    (s : St) (hwf : WF s)
    (hval : ∀ q ∈ addPairs body, (checkedIdx s.ptr q.1).isSome) :
    ∃ t, Execs red s t ∧ t.ptr = s.ptr ∧ t.inp = s.inp ∧ t.out = s.out ∧
      (∀ i, memRead t.mem i =
        if i = s.ptr then 0
        else (memRead s.mem i +
          memRead s.mem s.ptr * deltaAt (addPairs body) s.ptr i) % 256) := by
  obtain ⟨hall, hbase, hform⟩ := loop_to_addmul_body_spec hred
  have hvalnz : ∀ q ∈ nzPairs (addPairs body), (checkedIdx s.ptr q.1).isSome :=
    fun q hq => hval q (nzPairs_subset _ q hq)
  have hnz : ∀ q ∈ nzPairs (addPairs body), q.1 ≠ 0 := nzPairs_ne_zero _
  obtain ⟨t₁, hex, hptr, hinp, hout, hcnt, hreads⟩ := addMuls_run
    (nzPairs (addPairs body)) s hwf hvalnz hnz
  set t₂ : St := { t₁ with mem := memWrite t₁.mem (wrapIdx t₁.ptr 0) 0 } with ht₂
  refine ⟨t₂, ?_, by rw [show t₂.ptr = t₁.ptr from rfl, hptr],
    by rw [show t₂.inp = t₁.inp from rfl, hinp],
    by rw [show t₂.out = t₁.out from rfl, hout], fun i => ?_⟩
  · rw [hform]
    refine Execs_append.2 ⟨t₁, hex, ?_⟩
    refine Execs_cons_step (f := 0) ?_ (Execs_nil t₂)
    show execOne (IWO.Init 0 0) t₁ = some t₂
    simp only [execOne]
  · have hwp : wrapIdx t₁.ptr 0 = s.ptr := by
      rw [hptr]
      exact wrapIdx_zero hwf.1
    show memRead (memWrite t₁.mem (wrapIdx t₁.ptr 0) 0) i = _
    rw [hwp]
    by_cases hi : i = s.ptr
    · subst hi
      rw [if_pos rfl, memRead_memWrite_self]
    · rw [if_neg hi, memRead_memWrite_ne _ hi, hreads i hi, deltaAt_nz _ hi]

/-- **C3.** For a qualifying multiply-loop (body exclusively `AddI`, net
delta 255 mod 256 at offset 0, addresses representable), from any byte
tape and any counter value the strength-reduced body
(`AddMul`s then `Init(0,0)`, as built by `loop_to_addmul_body`) and the
naive loop both terminate and produce observationally identical states:
same tape reads everywhere, same pointer, same input and output. -/
theorem strength_reduction_equiv {body red : List IWO} {s : St}
    (hred : loop_to_addmul_body body = some red) (hwf : WF s)
    (hval : ∀ q ∈ addPairs body, (checkedIdx s.ptr q.1).isSome = true)
    (_hc : memRead s.mem s.ptr < 256) :
    ∃ t t', Execs [IWO.Loop body] s t ∧ Execs red s t' ∧ stEquiv t' t := by
  obtain ⟨hall, hbase, hform⟩ := loop_to_addmul_body_spec hred
  obtain ⟨t, hloop, htp, hti, hto, hreads⟩ :=
    addLoop_run body hall hbase (memRead s.mem s.ptr) s hwf rfl hval
  obtain ⟨t', hex, htp', hti', hto', hreads'⟩ := reduced_run hred s hwf hval
  refine ⟨t, t', Execs_singleton_loop.2 hloop, hex, ?_⟩
  exact ⟨fun i => by rw [hreads' i, hreads i], by rw [htp', htp],
    by rw [hti', hti], by rw [hto', hto]⟩

theorem strength_reduction_equiv_witness :
    loop_to_addmul_body [IWO.AddI 0 255, IWO.AddI 1 3] =
      some [IWO.AddMul 0 1 3, IWO.Init 0 0] ∧
    WF ⟨[5, 7], 0, [], []⟩ ∧
    (∀ q ∈ addPairs [IWO.AddI 0 255, IWO.AddI 1 3],
      (checkedIdx (St.mk [5, 7] 0 [] []).ptr q.1).isSome = true) ∧
    memRead (St.mk [5, 7] 0 [] []).mem (St.mk [5, 7] 0 [] []).ptr < 256 ∧
    ∃ t t', Execs [IWO.Loop [IWO.AddI 0 255, IWO.AddI 1 3]] ⟨[5, 7], 0, [], []⟩ t ∧
      Execs [IWO.AddMul 0 1 3, IWO.Init 0 0] ⟨[5, 7], 0, [], []⟩ t' ∧ stEquiv t' t :=
  ⟨rfl, ⟨by decide, by unfold cellsWF; decide⟩, by decide, by decide,
    strength_reduction_equiv rfl ⟨by decide, by unfold cellsWF; decide⟩ (by decide)
      (by decide)⟩

/-- The code's rewritten loop node `Loop(AddMuls ++ Init)` simulates the
original qualifying loop exactly up to observational equality. -/
theorem l2a_loop_sim {body red : List IWO} (hred : loop_to_addmul_body body = some red)
    {s sf : St} (hwf : WF s) (h : LoopExec body s sf) :
    ∃ t, LoopExec red s t ∧ stEquiv t sf := by
  by_cases hc : memRead s.mem s.ptr = 0
  · rw [LoopExec_zero_inv hc h]
    exact ⟨s, LoopExec_zero hc, stEquiv_refl s⟩
  · obtain ⟨hall, hbase, hform⟩ := loop_to_addmul_body_spec hred
    obtain ⟨s₁, hfirst, _⟩ := LoopExec_ne_inv hc h
    have hval := addBody_valid body hall hfirst
    obtain ⟨t, hloop, htp, hti, hto, hreads⟩ :=
      addLoop_run body hall hbase (memRead s.mem s.ptr) s hwf rfl hval
    have hsf : sf = t := LoopExec_det h hloop
    subst hsf
    obtain ⟨t', hex, htp', hti', hto', hreads'⟩ := reduced_run hred s hwf hval
    have hcnt' : memRead t'.mem t'.ptr = 0 := by
      rw [htp', hreads' s.ptr, if_pos rfl]
    refine ⟨t', LoopExec_iter hc hex (LoopExec_zero hcnt'), ?_⟩
    exact ⟨fun i => by rw [hreads' i, hreads i], by rw [htp', htp],
      by rw [hti', hti], by rw [hto', hto]⟩

/-- Multiply-loop strength reduction simulates the input program. -/
theorem l2a_sim : ∀ xs : List IWO, SimE xs (loop_to_addmul xs) := by
  intro xs
  induction xs using loop_to_addmul.induct with
  | case1 =>
    simp only [loop_to_addmul]
    exact SimE_refl []
  | case2 l rest ihl ihrest =>
    rw [loop_to_addmul]
    cases hbody : loop_to_addmul_body l with
    | some red =>
      have hsim : SimE [IWO.Loop l] [IWO.Loop red] := by
        intro s s' hwf h
        obtain ⟨t, h1, h2⟩ := l2a_loop_sim hbody hwf (Execs_singleton_loop.1 h)
        exact ⟨t, Execs_singleton_loop.2 h1, h2⟩
      exact @SimE_append [IWO.Loop l] _ _ _ hsim ihrest
    | none =>
      exact @SimE_append [IWO.Loop l] _ _ _ (SimE_loop_cong ihl) ihrest
  | case3 i rest hni ihrest =>
    rw [loop_to_addmul.eq_def]
    cases i with
    | Loop l => exact absurd rfl (hni l)
    | AddI o x => exact SimE_cons_shared ihrest
    | MovePtr x => exact SimE_cons_shared ihrest
    | Init o x => exact SimE_cons_shared ihrest
    | AddMul o1 o2 x => exact SimE_cons_shared ihrest
    | GetChar o => exact SimE_cons_shared ihrest
    | PutChar o => exact SimE_cons_shared ihrest

/-! ### Flush structure of pointer-move deferral -/

theorem delayGo_first_loop (pre : List IWO) :
    ∀ (ofs : Int) (l post : List IWO), noLoopIn pre = true →
    delayGo ofs (pre ++ IWO.Loop l :: post) =
      emitGo ofs pre ++ IWO.MovePtr (ofs + moveSum pre) ::
        IWO.Loop (delay_move_ptr l) :: delay_move_ptr post := by
  induction pre with
  | nil =>
    intro ofs l post _
    simp only [List.nil_append, delayGo, emitGo, moveSum, delay_move_ptr, add_zero]
  | cons i pre' ih =>
    intro ofs l post hnl
    cases i with
    | AddI o x =>
      simp only [List.cons_append, delayGo, emitGo, moveSum]
      rw [ih ofs l post (by simpa [noLoopIn] using hnl)]
    | MovePtr x =>
      simp only [List.cons_append, delayGo, emitGo, moveSum]
      rw [ih (ofs + x) l post (by simpa [noLoopIn] using hnl)]
      ring_nf
    | Init o x =>
      simp only [List.cons_append, delayGo, emitGo, moveSum]
      rw [ih ofs l post (by simpa [noLoopIn] using hnl)]
    | AddMul o1 o2 x =>
      simp only [List.cons_append, delayGo, emitGo, moveSum]
      rw [ih ofs l post (by simpa [noLoopIn] using hnl)]
    | GetChar o =>
      simp only [List.cons_append, delayGo, emitGo, moveSum]
      rw [ih ofs l post (by simpa [noLoopIn] using hnl)]
    | PutChar o =>
      simp only [List.cons_append, delayGo, emitGo, moveSum]
      rw [ih ofs l post (by simpa [noLoopIn] using hnl)]
    | Loop l' => exact absurd hnl (by simp [noLoopIn])

theorem emitGo_no_move_no_loop (pre : List IWO) :
    ∀ ofs : Int, ∀ i ∈ emitGo ofs pre, (∀ x, i ≠ IWO.MovePtr x) ∧ ∀ l, i ≠ IWO.Loop l := by
  induction pre with
  | nil => intro ofs i hi; exact absurd hi (by simp [emitGo])
  | cons j pre' ih =>
    intro ofs i hi
    cases j <;> simp only [emitGo] at hi
    case MovePtr x => exact ih (ofs + x) i hi
    case Loop l => exact ih ofs i hi
    case AddI o x =>
      rcases List.mem_cons.1 hi with h1 | h2
      · subst h1
        exact ⟨fun y hy => IWO.noConfusion hy, fun l hl => IWO.noConfusion hl⟩
      · exact ih ofs i h2
    case Init o x =>
      rcases List.mem_cons.1 hi with h1 | h2
      · subst h1
        exact ⟨fun y hy => IWO.noConfusion hy, fun l hl => IWO.noConfusion hl⟩
      · exact ih ofs i h2
    case AddMul o1 o2 x =>
      rcases List.mem_cons.1 hi with h1 | h2
      · subst h1
        exact ⟨fun y hy => IWO.noConfusion hy, fun l hl => IWO.noConfusion hl⟩
      · exact ih ofs i h2
    case GetChar o =>
      rcases List.mem_cons.1 hi with h1 | h2
      · subst h1
        exact ⟨fun y hy => IWO.noConfusion hy, fun l hl => IWO.noConfusion hl⟩
      · exact ih ofs i h2
    case PutChar o =>
      rcases List.mem_cons.1 hi with h1 | h2
      · subst h1
        exact ⟨fun y hy => IWO.noConfusion hy, fun l hl => IWO.noConfusion hl⟩
      · exact ih ofs i h2

theorem rzmp_cons_other {i : IWO} (hm : ∀ x, i ≠ IWO.MovePtr x)
    (hl : ∀ l, i ≠ IWO.Loop l) (rest : List IWO) :
    remove_zero_move_ptr (i :: rest) = i :: remove_zero_move_ptr rest := by
  cases i with
  | MovePtr x => exact absurd rfl (hm x)
  | Loop l => exact absurd rfl (hl l)
  | AddI o x => simp only [remove_zero_move_ptr]
  | Init o x => simp only [remove_zero_move_ptr]
  | AddMul o1 o2 x => simp only [remove_zero_move_ptr]
  | GetChar o => simp only [remove_zero_move_ptr]
  | PutChar o => simp only [remove_zero_move_ptr]

theorem rzmp_eq_of_plain (xs : List IWO)
    (h : ∀ i ∈ xs, (∀ x, i ≠ IWO.MovePtr x) ∧ ∀ l, i ≠ IWO.Loop l) :
    remove_zero_move_ptr xs = xs := by
  induction xs with
  | nil => simp only [remove_zero_move_ptr]
  | cons i rest ih =>
    have hrest : remove_zero_move_ptr rest = rest :=
      ih fun j hj => h j (List.mem_cons_of_mem _ hj)
    have hi := h i (by simp)
    rw [rzmp_cons_other hi.1 hi.2, hrest]

theorem rzmp_append (xs ys : List IWO) :
    remove_zero_move_ptr (xs ++ ys) =
      remove_zero_move_ptr xs ++ remove_zero_move_ptr ys := by
  induction xs with
  | nil => simp only [remove_zero_move_ptr, List.nil_append]
  | cons i rest ih =>
    cases i with
    | MovePtr x =>
      simp only [List.cons_append, remove_zero_move_ptr]
      by_cases hx : x ≠ 0
      · rw [if_pos hx, if_pos hx, ih, List.cons_append]
      · rw [if_neg hx, if_neg hx, ih]
    | Loop l =>
      simp only [List.cons_append, remove_zero_move_ptr, ih, List.cons_append]
    | AddI o x =>
      rw [List.cons_append, rzmp_cons_other (fun _ hy => IWO.noConfusion hy) (fun _ hy => IWO.noConfusion hy),
        rzmp_cons_other (fun _ hy => IWO.noConfusion hy) (fun _ hy => IWO.noConfusion hy), ih,
        List.cons_append]
    | Init o x =>
      rw [List.cons_append, rzmp_cons_other (fun _ hy => IWO.noConfusion hy) (fun _ hy => IWO.noConfusion hy),
        rzmp_cons_other (fun _ hy => IWO.noConfusion hy) (fun _ hy => IWO.noConfusion hy), ih,
        List.cons_append]
    | AddMul o1 o2 x =>
      rw [List.cons_append, rzmp_cons_other (fun _ hy => IWO.noConfusion hy) (fun _ hy => IWO.noConfusion hy),
        rzmp_cons_other (fun _ hy => IWO.noConfusion hy) (fun _ hy => IWO.noConfusion hy), ih,
        List.cons_append]
    | GetChar o =>
      rw [List.cons_append, rzmp_cons_other (fun _ hy => IWO.noConfusion hy) (fun _ hy => IWO.noConfusion hy),
        rzmp_cons_other (fun _ hy => IWO.noConfusion hy) (fun _ hy => IWO.noConfusion hy), ih,
        List.cons_append]
    | PutChar o =>
      rw [List.cons_append, rzmp_cons_other (fun _ hy => IWO.noConfusion hy) (fun _ hy => IWO.noConfusion hy),
        rzmp_cons_other (fun _ hy => IWO.noConfusion hy) (fun _ hy => IWO.noConfusion hy), ih,
        List.cons_append]

/-- **C8.** In the cleaned offset IR, a sequence whose first loop node
follows the loop-free prefix `pre` (processing starts with pending offset
`ofs`) takes the form: the prefix's cell operations — among which there is
no `MovePtr` at all — then at most one `MovePtr`, present exactly when the
net displacement `ofs + moveSum pre` accumulated since the start (or, by
reapplying the equation to `post` with offset 0, since the previous loop)
is non-zero and carrying exactly that net displacement, then the `Loop`
whose body is deferred independently starting from offset 0. -/
theorem loop_flush_structure (pre l post : List IWO) (ofs : Int)
    (hnl : noLoopIn pre = true) :
    remove_zero_move_ptr (delayGo ofs (pre ++ IWO.Loop l :: post)) =
      emitGo ofs pre ++
        (if ofs + moveSum pre = 0 then [] else [IWO.MovePtr (ofs + moveSum pre)]) ++
        IWO.Loop (remove_zero_move_ptr (delay_move_ptr l)) ::
          remove_zero_move_ptr (delay_move_ptr post) ∧
    (∀ i ∈ emitGo ofs pre, ∀ x, i ≠ IWO.MovePtr x) := by
  refine ⟨?_, fun i hi => (emitGo_no_move_no_loop pre ofs i hi).1⟩
  rw [delayGo_first_loop pre ofs l post hnl, rzmp_append,
    rzmp_eq_of_plain _ (emitGo_no_move_no_loop pre ofs), List.append_assoc]
  congr 1
  by_cases hz : ofs + moveSum pre = 0
  · simp only [remove_zero_move_ptr,
      if_neg (show ¬ofs + moveSum pre ≠ 0 by simpa using hz), if_pos hz,
      List.nil_append]
  · simp only [remove_zero_move_ptr, if_pos (show ofs + moveSum pre ≠ 0 from hz),
      if_neg hz, List.cons_append, List.nil_append]

theorem loop_flush_structure_witness :
    noLoopIn [IWO.AddI 0 1, IWO.MovePtr 2] = true ∧
    (remove_zero_move_ptr (delayGo 0
        ([IWO.AddI 0 1, IWO.MovePtr 2] ++ IWO.Loop [IWO.AddI 0 255] :: [])) =
      emitGo 0 [IWO.AddI 0 1, IWO.MovePtr 2] ++
        (if (0 : Int) + moveSum [IWO.AddI 0 1, IWO.MovePtr 2] = 0 then []
         else [IWO.MovePtr ((0 : Int) + moveSum [IWO.AddI 0 1, IWO.MovePtr 2])]) ++
        IWO.Loop (remove_zero_move_ptr (delay_move_ptr [IWO.AddI 0 255])) ::
          remove_zero_move_ptr (delay_move_ptr []) ∧
      (∀ i ∈ emitGo 0 [IWO.AddI 0 1, IWO.MovePtr 2], ∀ x, i ≠ IWO.MovePtr x)) :=
  ⟨rfl, loop_flush_structure [IWO.AddI 0 1, IWO.MovePtr 2] [IWO.AddI 0 255] [] 0 rfl⟩

/-! ### Idempotence of the peephole pass -/

theorem canMerge_into_addI {b : Inst} (y m : Nat) :
    canMerge b (Inst.AddI y) ↔ canMerge b (Inst.AddI m) := by
  cases b <;> simp [canMerge]

theorem canMerge_into_init {b : Inst} (y m : Nat) :
    canMerge b (Inst.Init y) ↔ canMerge b (Inst.Init m) := by
  cases b <;> simp [canMerge]

theorem canMerge_into_move {b : Inst} (y m : Int) :
    canMerge b (Inst.MovePtr y) ↔ canMerge b (Inst.MovePtr m) := by
  cases b <;> simp [canMerge]

theorem not_canMerge_into_init (b : Inst) (x : Nat) : ¬ canMerge b (Inst.Init x) := by
  cases b <;> simp [canMerge]

theorem not_canMerge_into_loop (b : Inst) (l : List Inst) :
    ¬ canMerge b (Inst.Loop l) := by
  cases b <;> simp [canMerge]

theorem not_canMerge_into_get (b : Inst) : ¬ canMerge b Inst.GetChar := by
  cases b <;> simp [canMerge]

theorem not_canMerge_into_put (b : Inst) : ¬ canMerge b Inst.PutChar := by
  cases b <;> simp [canMerge]

theorem allFixed_iff (l : List Inst) : allFixed l ↔ ∀ i ∈ l, bodyFixed i := by
  induction l with
  | nil => simp [allFixed]
  | cons i rest ih => simp [allFixed, ih]

/-- The accumulator invariant: read in reverse, no adjacent mergeable
pair. -/
def raccOK (acc : List Inst) : Prop :=
  List.Chain' (fun a b => ¬ canMerge b a) acc

theorem raccOK_pushA {acc : List Inst} (h : raccOK acc) (x : Nat) :
    raccOK (pushA acc x) := by
  cases acc with
  | nil => simp [pushA, raccOK]
  | cons hd a =>
    cases hd with
    | AddI y =>
      simp only [pushA]
      rw [raccOK, List.chain'_cons'] at h ⊢
      refine ⟨fun b hb => ?_, h.2⟩
      rw [canMerge_into_addI _ y]
      exact h.1 b hb
    | Init y =>
      simp only [pushA]
      rw [raccOK, List.chain'_cons'] at h ⊢
      refine ⟨fun b hb => ?_, h.2⟩
      rw [canMerge_into_init _ y]
      exact h.1 b hb
    | MovePtr y =>
      simp only [pushA]
      rw [raccOK, List.chain'_cons']
      exact ⟨fun b hb => by cases hb; simp [canMerge], h⟩
    | GetChar =>
      simp only [pushA]
      rw [raccOK, List.chain'_cons']
      exact ⟨fun b hb => by cases hb; simp [canMerge], h⟩
    | PutChar =>
      simp only [pushA]
      rw [raccOK, List.chain'_cons']
      exact ⟨fun b hb => by cases hb; simp [canMerge], h⟩
    | Loop l =>
      simp only [pushA]
      rw [raccOK, List.chain'_cons']
      exact ⟨fun b hb => by cases hb; simp [canMerge], h⟩

theorem allFixed_pushA {acc : List Inst} (h : allFixed acc) (x : Nat) :
    allFixed (pushA acc x) := by
  cases acc with
  | nil => exact ⟨trivial, trivial⟩
  | cons hd a =>
    obtain ⟨h1, h2⟩ := h
    cases hd with
    | AddI y => exact ⟨trivial, h2⟩
    | Init y => exact ⟨trivial, h2⟩
    | MovePtr y => exact ⟨trivial, h1, h2⟩
    | GetChar => exact ⟨trivial, h1, h2⟩
    | PutChar => exact ⟨trivial, h1, h2⟩
    | Loop l => exact ⟨trivial, h1, h2⟩

theorem raccOK_pushM {acc : List Inst} (h : raccOK acc) (x : Int) :
    raccOK (pushM acc x) := by
  cases acc with
  | nil => simp [pushM, raccOK]
  | cons hd a =>
    cases hd with
    | MovePtr y =>
      simp only [pushM]
      rw [raccOK, List.chain'_cons'] at h ⊢
      refine ⟨fun b hb => ?_, h.2⟩
      rw [canMerge_into_move _ y]
      exact h.1 b hb
    | AddI y =>
      simp only [pushM]
      rw [raccOK, List.chain'_cons']
      exact ⟨fun b hb => by cases hb; simp [canMerge], h⟩
    | Init y =>
      simp only [pushM]
      rw [raccOK, List.chain'_cons']
      exact ⟨fun b hb => by cases hb; simp [canMerge], h⟩
    | GetChar =>
      simp only [pushM]
      rw [raccOK, List.chain'_cons']
      exact ⟨fun b hb => by cases hb; simp [canMerge], h⟩
    | PutChar =>
      simp only [pushM]
      rw [raccOK, List.chain'_cons']
      exact ⟨fun b hb => by cases hb; simp [canMerge], h⟩
    | Loop l =>
      simp only [pushM]
      rw [raccOK, List.chain'_cons']
      exact ⟨fun b hb => by cases hb; simp [canMerge], h⟩

theorem allFixed_pushM {acc : List Inst} (h : allFixed acc) (x : Int) :
    allFixed (pushM acc x) := by
  cases acc with
  | nil => exact ⟨trivial, trivial⟩
  | cons hd a =>
    obtain ⟨h1, h2⟩ := h
    cases hd with
    | MovePtr y => exact ⟨trivial, h2⟩
    | AddI y => exact ⟨trivial, h1, h2⟩
    | Init y => exact ⟨trivial, h1, h2⟩
    | GetChar => exact ⟨trivial, h1, h2⟩
    | PutChar => exact ⟨trivial, h1, h2⟩
    | Loop l => exact ⟨trivial, h1, h2⟩

/-- The peephole pass always produces a normal form: no adjacent
mergeable pair and every loop body fixed and distinct from the clear-loop
body. -/
theorem optBasicGo_normal : ∀ acc xs : List Inst, raccOK acc → allFixed acc →
    List.Chain' (fun a b => ¬ canMerge a b) (optBasicGo acc xs) ∧
      allFixed (optBasicGo acc xs) := by
  intro acc xs
  induction acc, xs using optBasicGo.induct with
  | case1 acc =>
    intro hr hf
    rw [optBasicGo]
    constructor
    · rw [List.chain'_reverse]
      exact hr
    · rw [allFixed_iff]
      intro i hi
      rw [List.mem_reverse] at hi
      exact (allFixed_iff acc).1 hf i hi
  | case2 acc x rest ih =>
    intro hr hf
    rw [optBasicGo]
    exact ih (raccOK_pushA hr x) (allFixed_pushA hf x)
  | case3 acc x rest ih =>
    intro hr hf
    rw [optBasicGo]
    exact ih (raccOK_pushM hr x) (allFixed_pushM hf x)
  | case4 acc l rest hl ihl ih =>
    intro hr hf
    rw [optBasicGo, hl]
    refine ih ?_ ⟨trivial, hf⟩
    rw [raccOK, List.chain'_cons']
    exact ⟨fun b hb => not_canMerge_into_init b 0, hr⟩
  | case5 acc l rest hl ihl ih =>
    intro hr hf
    obtain ⟨hchain, hfix⟩ := ihl (by simp [raccOK]) trivial
    rw [optBasicGo]
    split
    · rename_i heq
      exact absurd heq hl
    · refine ih ?_ ?_
      · rw [raccOK, List.chain'_cons']
        exact ⟨fun b hb => not_canMerge_into_loop b _, hr⟩
      · exact ⟨⟨hl, hchain, hfix⟩, hf⟩
  | case6 acc i rest hna hnm hnl ih =>
    intro hr hf
    rw [optBasicGo.eq_def]
    have hstep : ∀ b, ¬ canMerge b i ∧ bodyFixed i := by
      intro b
      cases i with
      | AddI x => exact absurd rfl (hna x)
      | MovePtr x => exact absurd rfl (hnm x)
      | Loop l => exact absurd rfl (hnl l)
      | Init x => exact ⟨not_canMerge_into_init b x, trivial⟩
      | GetChar => exact ⟨not_canMerge_into_get b, trivial⟩
      | PutChar => exact ⟨not_canMerge_into_put b, trivial⟩
    cases i with
    | AddI x => exact absurd rfl (hna x)
    | MovePtr x => exact absurd rfl (hnm x)
    | Loop l => exact absurd rfl (hnl l)
    | Init x =>
      refine ih ?_ ⟨(hstep Inst.GetChar).2, hf⟩
      rw [raccOK, List.chain'_cons']
      exact ⟨fun b hb => (hstep b).1, hr⟩
    | GetChar =>
      refine ih ?_ ⟨(hstep Inst.GetChar).2, hf⟩
      rw [raccOK, List.chain'_cons']
      exact ⟨fun b hb => (hstep b).1, hr⟩
    | PutChar =>
      refine ih ?_ ⟨(hstep Inst.GetChar).2, hf⟩
      rw [raccOK, List.chain'_cons']
      exact ⟨fun b hb => (hstep b).1, hr⟩

/-- A normal form is a fixed point of the peephole pass. -/
theorem optBasicGo_fixed : ∀ acc xs : List Inst,
    List.Chain' (fun a b => ¬ canMerge a b) xs → allFixed xs →
    (∀ a b, acc.head? = some a → xs.head? = some b → ¬ canMerge a b) →
    optBasicGo acc xs = acc.reverse ++ xs := by
  intro acc xs
  induction acc, xs using optBasicGo.induct with
  | case1 acc =>
    intro _ _ _
    rw [optBasicGo, List.append_nil]
  | case2 acc x rest ih =>
    intro hchain hfix hbd
    have hpush : pushA acc x = Inst.AddI x :: acc := by
      cases acc with
      | nil => rfl
      | cons h a =>
        have hb := hbd h (Inst.AddI x) rfl rfl
        cases h with
        | AddI y => exact absurd (by simp [canMerge]) hb
        | Init y => exact absurd (by simp [canMerge]) hb
        | MovePtr y => rfl
        | GetChar => rfl
        | PutChar => rfl
        | Loop l => rfl
    rw [List.chain'_cons'] at hchain
    rw [optBasicGo]
    rw [show optBasicGo (pushA acc x) rest = (pushA acc x).reverse ++ rest from
      ih hchain.2 hfix.2 (by
        rw [hpush]
        intro a b ha hb
        cases ha
        exact hchain.1 b hb)]
    rw [hpush]
    simp
  | case3 acc x rest ih =>
    intro hchain hfix hbd
    have hpush : pushM acc x = Inst.MovePtr x :: acc := by
      cases acc with
      | nil => rfl
      | cons h a =>
        have hb := hbd h (Inst.MovePtr x) rfl rfl
        cases h with
        | MovePtr y => exact absurd (by simp [canMerge]) hb
        | AddI y => rfl
        | Init y => rfl
        | GetChar => rfl
        | PutChar => rfl
        | Loop l => rfl
    rw [List.chain'_cons'] at hchain
    rw [optBasicGo]
    rw [show optBasicGo (pushM acc x) rest = (pushM acc x).reverse ++ rest from
      ih hchain.2 hfix.2 (by
        rw [hpush]
        intro a b ha hb
        cases ha
        exact hchain.1 b hb)]
    rw [hpush]
    simp
  | case4 acc l rest hl ihl ih =>
    intro hchain hfix hbd
    obtain ⟨⟨hne, hbchain, hbfix⟩, _⟩ := hfix
    have : optBasicGo [] l = l := by
      simpa using ihl hbchain hbfix (by simp)
    rw [hl] at this
    exact absurd this.symm hne
  | case5 acc l rest hl ihl ih =>
    intro hchain hfix hbd
    obtain ⟨⟨hne, hbchain, hbfix⟩, hfrest⟩ := hfix
    have hself : optBasicGo [] l = l := by
      simpa using ihl hbchain hbfix (by simp)
    rw [List.chain'_cons'] at hchain
    rw [optBasicGo]
    split
    · rename_i heq
      exact absurd heq hl
    · rw [hself] at ih ⊢
      rw [show optBasicGo (Inst.Loop l :: acc) rest = (Inst.Loop l :: acc).reverse ++ rest from
        ih hchain.2 hfrest (by
          intro a b ha hb
          cases ha
          exact hchain.1 b hb)]
      simp
  | case6 acc i rest hna hnm hnl ih =>
    intro hchain hfix hbd
    rw [List.chain'_cons'] at hchain
    have hrec : optBasicGo (i :: acc) rest = (i :: acc).reverse ++ rest :=
      ih hchain.2 hfix.2 (by
        intro a b ha hb
        cases ha
        exact hchain.1 b hb)
    cases i with
    | AddI x => exact absurd rfl (hna x)
    | MovePtr x => exact absurd rfl (hnm x)
    | Loop l => exact absurd rfl (hnl l)
    | Init x =>
      rw [optBasicGo.eq_def]
      show optBasicGo (Inst.Init x :: acc) rest = _
      rw [hrec]
      simp
    | GetChar =>
      rw [optBasicGo.eq_def]
      show optBasicGo (Inst.GetChar :: acc) rest = _
      rw [hrec]
      simp
    | PutChar =>
      rw [optBasicGo.eq_def]
      show optBasicGo (Inst.PutChar :: acc) rest = _
      rw [hrec]
      simp

/-- **C9.** The peephole coalescing pass is idempotent: running
`optimize_basic` on its own output returns that output unchanged. -/
theorem optimize_basic_idempotent (xs : List Inst) :
    optimize_basic (optimize_basic xs) = optimize_basic xs := by
  obtain ⟨hchain, hfix⟩ := optBasicGo_normal [] xs (by simp [raccOK]) trivial
  have h := optBasicGo_fixed [] (optimize_basic xs) hchain hfix (by simp)
  simpa [optimize_basic] using h

/-! ### Clear-loop recognition -/

theorem optBasicGo_bad_preserved : ∀ acc xs : List Inst,
    (∃ i ∈ acc, ∀ x, i ≠ Inst.AddI x) →
    ∃ i ∈ optBasicGo acc xs, ∀ x, i ≠ Inst.AddI x := by
  intro acc xs
  induction acc, xs using optBasicGo.induct with
  | case1 acc =>
    intro ⟨i, hi, hbad⟩
    rw [optBasicGo]
    exact ⟨i, List.mem_reverse.2 hi, hbad⟩
  | case2 acc x rest ih =>
    rintro ⟨i, hi, hbad⟩
    rw [optBasicGo]
    refine ih ?_
    cases acc with
    | nil => exact absurd hi (by simp)
    | cons hd a =>
      rcases List.mem_cons.1 hi with h1 | h2
      · subst h1
        cases i with
        | AddI y => exact absurd rfl (hbad y)
        | Init y =>
          exact ⟨Inst.Init ((y + x) % 256), by simp [pushA], fun z hz => nomatch hz⟩
        | MovePtr y =>
          exact ⟨Inst.MovePtr y, by simp [pushA], fun z hz => nomatch hz⟩
        | GetChar => exact ⟨Inst.GetChar, by simp [pushA], fun z hz => nomatch hz⟩
        | PutChar => exact ⟨Inst.PutChar, by simp [pushA], fun z hz => nomatch hz⟩
        | Loop l => exact ⟨Inst.Loop l, by simp [pushA], fun z hz => nomatch hz⟩
      · refine ⟨i, ?_, hbad⟩
        cases hd <;> simp [pushA, h2]
  | case3 acc x rest ih =>
    rintro ⟨i, hi, hbad⟩
    rw [optBasicGo]
    refine ih ?_
    cases acc with
    | nil => exact absurd hi (by simp)
    | cons hd a =>
      rcases List.mem_cons.1 hi with h1 | h2
      · subst h1
        cases i with
        | AddI y => exact absurd rfl (hbad y)
        | MovePtr y =>
          exact ⟨Inst.MovePtr (y + x), by simp [pushM], fun z hz => nomatch hz⟩
        | Init y => exact ⟨Inst.Init y, by simp [pushM], fun z hz => nomatch hz⟩
        | GetChar => exact ⟨Inst.GetChar, by simp [pushM], fun z hz => nomatch hz⟩
        | PutChar => exact ⟨Inst.PutChar, by simp [pushM], fun z hz => nomatch hz⟩
        | Loop l => exact ⟨Inst.Loop l, by simp [pushM], fun z hz => nomatch hz⟩
      · refine ⟨i, ?_, hbad⟩
        cases hd <;> simp [pushM, h2]
  | case4 acc l rest hl ihl ih =>
    rintro ⟨i, hi, hbad⟩
    rw [optBasicGo, hl]
    exact ih ⟨i, List.mem_cons_of_mem _ hi, hbad⟩
  | case5 acc l rest hl ihl ih =>
    rintro ⟨i, hi, hbad⟩
    rw [optBasicGo]
    split
    · rename_i heq; exact absurd heq hl
    · exact ih ⟨i, List.mem_cons_of_mem _ hi, hbad⟩
  | case6 acc i rest hna hnm hnl ih =>
    rintro ⟨j, hj, hbad⟩
    rw [optBasicGo.eq_def]
    cases i with
    | AddI x => exact absurd rfl (hna x)
    | MovePtr x => exact absurd rfl (hnm x)
    | Loop l => exact absurd rfl (hnl l)
    | Init x =>
      show ∃ k ∈ optBasicGo (Inst.Init x :: acc) rest, ∀ y, k ≠ Inst.AddI y
      exact ih ⟨j, List.mem_cons_of_mem _ hj, hbad⟩
    | GetChar =>
      show ∃ k ∈ optBasicGo (Inst.GetChar :: acc) rest, ∀ y, k ≠ Inst.AddI y
      exact ih ⟨j, List.mem_cons_of_mem _ hj, hbad⟩
    | PutChar =>
      show ∃ k ∈ optBasicGo (Inst.PutChar :: acc) rest, ∀ y, k ≠ Inst.AddI y
      exact ih ⟨j, List.mem_cons_of_mem _ hj, hbad⟩

theorem optBasicGo_addI_inv : ∀ acc xs : List Inst,
    (acc = [] ∨ ∃ v, acc = [Inst.AddI v]) →
    optBasicGo acc xs = [Inst.AddI 255] →
    allInstAdds xs ∧ (instAddSum acc + instAddSum xs) % 256 = 255 := by
  intro acc xs
  induction acc, xs using optBasicGo.induct with
  | case1 acc =>
    intro hacc heq
    rw [optBasicGo] at heq
    rcases hacc with h | ⟨v, h⟩
    · subst h; exact absurd heq (by simp)
    · subst h
      simp only [List.reverse_cons, List.reverse_nil, List.nil_append] at heq
      cases heq
      exact ⟨trivial, by simp [instAddSum]⟩
  | case2 acc x rest ih =>
    intro hacc heq
    rw [optBasicGo] at heq
    rcases hacc with h | ⟨v, h⟩
    · subst h
      obtain ⟨h1, h2⟩ := ih (Or.inr ⟨x, rfl⟩) heq
      refine ⟨h1, ?_⟩
      simp only [instAddSum] at h2 ⊢
      omega
    · subst h
      obtain ⟨h1, h2⟩ := ih (Or.inr ⟨(v + x) % 256, rfl⟩) (by simpa [pushA] using heq)
      refine ⟨h1, ?_⟩
      simp only [instAddSum] at h2 ⊢
      omega
  | case3 acc x rest ih =>
    intro hacc heq
    rw [optBasicGo] at heq
    exfalso
    have hbad : ∃ i ∈ pushM acc x, ∀ y, i ≠ Inst.AddI y := by
      rcases hacc with h | ⟨v, h⟩ <;> subst h
      · exact ⟨Inst.MovePtr x, by simp [pushM], fun z hz => nomatch hz⟩
      · exact ⟨Inst.MovePtr x, by simp [pushM], fun z hz => nomatch hz⟩
    obtain ⟨i, hi, hbad'⟩ := optBasicGo_bad_preserved _ _ hbad
    rw [heq] at hi
    rcases List.mem_cons.1 hi with h1 | h2
    · exact hbad' 255 h1
    · exact absurd h2 (by simp)
  | case4 acc l rest hl ihl ih =>
    intro hacc heq
    rw [optBasicGo, hl] at heq
    have heq' : optBasicGo (Inst.Init 0 :: acc) rest = [Inst.AddI 255] := heq
    exfalso
    obtain ⟨i, hi, hbad'⟩ := optBasicGo_bad_preserved (Inst.Init 0 :: acc) rest
      ⟨Inst.Init 0, by simp, fun z hz => nomatch hz⟩
    rw [heq'] at hi
    rcases List.mem_cons.1 hi with h1 | h2
    · exact hbad' 255 h1
    · exact absurd h2 (by simp)
  | case5 acc l rest hl ihl ih =>
    intro hacc heq
    rw [optBasicGo] at heq
    exfalso
    split at heq
    · rename_i hmatch
      exact absurd hmatch hl
    · rename_i ob hne
      obtain ⟨i, hi, hbad'⟩ :=
        optBasicGo_bad_preserved (Inst.Loop (optBasicGo [] l) :: acc) rest
          ⟨Inst.Loop (optBasicGo [] l), by simp, fun z hz => nomatch hz⟩
      rw [heq] at hi
      rcases List.mem_cons.1 hi with h1 | h2
      · exact hbad' 255 h1
      · exact absurd h2 (by simp)
  | case6 acc i rest hna hnm hnl ih =>
    intro hacc heq
    rw [optBasicGo.eq_def] at heq
    exfalso
    cases i with
    | AddI x => exact absurd rfl (hna x)
    | MovePtr x => exact absurd rfl (hnm x)
    | Loop l => exact absurd rfl (hnl l)
    | Init x =>
      obtain ⟨j, hj, hbad'⟩ := optBasicGo_bad_preserved (Inst.Init x :: acc) rest
        ⟨Inst.Init x, by simp, fun z hz => nomatch hz⟩
      rw [show optBasicGo (Inst.Init x :: acc) rest = [Inst.AddI 255] from heq] at hj
      rcases List.mem_cons.1 hj with h1 | h2
      · exact hbad' 255 h1
      · exact absurd h2 (by simp)
    | GetChar =>
      obtain ⟨j, hj, hbad'⟩ := optBasicGo_bad_preserved (Inst.GetChar :: acc) rest
        ⟨Inst.GetChar, by simp, fun z hz => nomatch hz⟩
      rw [show optBasicGo (Inst.GetChar :: acc) rest = [Inst.AddI 255] from heq] at hj
      rcases List.mem_cons.1 hj with h1 | h2
      · exact hbad' 255 h1
      · exact absurd h2 (by simp)
    | PutChar =>
      obtain ⟨j, hj, hbad'⟩ := optBasicGo_bad_preserved (Inst.PutChar :: acc) rest
        ⟨Inst.PutChar, by simp, fun z hz => nomatch hz⟩
      rw [show optBasicGo (Inst.PutChar :: acc) rest = [Inst.AddI 255] from heq] at hj
      rcases List.mem_cons.1 hj with h1 | h2
      · exact hbad' 255 h1
      · exact absurd h2 (by simp)

theorem annotate_allAdds : ∀ {l : List Inst}, allInstAdds l →
    allAdds (annotate_offset l)
  | [], _ => by
    rw [show annotate_offset [] = [] by simp [annotate_offset]]
    trivial
  | Inst.AddI x :: rest, h => by
    rw [show annotate_offset (Inst.AddI x :: rest) =
      IWO.AddI 0 x :: annotate_offset rest by simp [annotate_offset]]
    exact annotate_allAdds (by simpa [allInstAdds] using h)
  | Inst.MovePtr x :: rest, h => absurd h (by simp [allInstAdds])
  | Inst.Init x :: rest, h => absurd h (by simp [allInstAdds])
  | Inst.GetChar :: rest, h => absurd h (by simp [allInstAdds])
  | Inst.PutChar :: rest, h => absurd h (by simp [allInstAdds])
  | Inst.Loop _ :: rest, h => absurd h (by simp [allInstAdds])

theorem annotate_zeroSum : ∀ {l : List Inst}, allInstAdds l →
    zeroSum (addPairs (annotate_offset l)) = instAddSum l
  | [], _ => by simp [annotate_offset, addPairs, zeroSum, instAddSum]
  | Inst.AddI x :: rest, h => by
    rw [show annotate_offset (Inst.AddI x :: rest) =
      IWO.AddI 0 x :: annotate_offset rest by simp [annotate_offset]]
    show (if (0 : Int) = 0 then x else 0) + zeroSum (addPairs (annotate_offset rest)) = _
    rw [if_pos rfl, annotate_zeroSum (by simpa [allInstAdds] using h)]
    rfl
  | Inst.MovePtr x :: rest, h => absurd h (by simp [allInstAdds])
  | Inst.Init x :: rest, h => absurd h (by simp [allInstAdds])
  | Inst.GetChar :: rest, h => absurd h (by simp [allInstAdds])
  | Inst.PutChar :: rest, h => absurd h (by simp [allInstAdds])
  | Inst.Loop _ :: rest, h => absurd h (by simp [allInstAdds])

theorem annotate_pairs_zero : ∀ {l : List Inst}, allInstAdds l →
    ∀ q ∈ addPairs (annotate_offset l), q.1 = 0
  | [], _ => by intro q hq; exact absurd hq (by simp [annotate_offset, addPairs])
  | Inst.AddI x :: rest, h => by
    intro q hq
    rw [show annotate_offset (Inst.AddI x :: rest) =
      IWO.AddI 0 x :: annotate_offset rest by simp [annotate_offset]] at hq
    rcases List.mem_cons.1 hq with h1 | h2
    · rw [h1]
    · exact annotate_pairs_zero (by simpa [allInstAdds] using h) q h2
  | Inst.MovePtr x :: rest, h => absurd h (by simp [allInstAdds])
  | Inst.Init x :: rest, h => absurd h (by simp [allInstAdds])
  | Inst.GetChar :: rest, h => absurd h (by simp [allInstAdds])
  | Inst.PutChar :: rest, h => absurd h (by simp [allInstAdds])
  | Inst.Loop _ :: rest, h => absurd h (by simp [allInstAdds])

theorem deltaAt_zero_offsets (ps : List (Int × Nat)) (h : ∀ q ∈ ps, q.1 = 0) :
    ∀ p i : Nat, i ≠ p → deltaAt ps p i = 0 := by
  induction ps with
  | nil => intro p i _; rfl
  | cons q rest ih =>
    intro p i hne
    obtain ⟨o, x⟩ := q
    have ho : o = 0 := h (o, x) (by simp)
    subst ho
    show (if checkedIdx p 0 = some i then x else 0) + deltaAt rest p i = 0
    rw [ih (fun r hr => h r (List.mem_cons_of_mem _ hr)) p i hne, if_neg ?hno]
    case hno =>
      intro hc
      obtain ⟨_, h2⟩ := checkedIdx_lt hc
      omega

/-- **C6.** A `Loop` whose optimized body is exactly `[AddI 255]` is
replaced by the peephole pass with `Init 0` (`SetZero`), and for every
well-formed starting state (cells are bytes, so any starting value 0–255)
the loop and the `SetZero` both terminate with the current cell zeroed,
every other cell, the pointer, the input and the output unchanged, and
the two final states observationally equal. -/
theorem clear_loop_correct {l : List Inst} (acc rest : List Inst) {s : St}
    (hopt : optimize_basic l = [Inst.AddI 255]) (hwf : WF s) :
    optBasicGo acc (Inst.Loop l :: rest) = optBasicGo (Inst.Init 0 :: acc) rest ∧
    ∃ t t', Execs (annotate_offset [Inst.Loop l]) s t ∧
      Execs (annotate_offset [Inst.Init 0]) s t' ∧ stEquiv t' t ∧
      memRead t'.mem s.ptr = 0 ∧ t'.ptr = s.ptr ∧ t'.inp = s.inp ∧ t'.out = s.out ∧
      (∀ i, i ≠ s.ptr → memRead t'.mem i = memRead s.mem i) := by
  have hopt' : optBasicGo [] l = [Inst.AddI 255] := hopt
  obtain ⟨hall, hsum⟩ := optBasicGo_addI_inv [] l (Or.inl rfl) hopt'
  refine ⟨by rw [optBasicGo, hopt'], ?_⟩
  have hallA := annotate_allAdds hall
  have hzero := annotate_pairs_zero hall
  have hzs : zeroSum (addPairs (annotate_offset l)) % 256 = 255 := by
    rw [annotate_zeroSum hall]
    simpa [instAddSum] using hsum
  have hval : ∀ q ∈ addPairs (annotate_offset l), (checkedIdx s.ptr q.1).isSome = true := by
    intro q hq
    rw [hzero q hq, checkedIdx_zero hwf.1]
    rfl
  obtain ⟨t, hloop, htp, hti, hto, hreads⟩ :=
    addLoop_run (annotate_offset l) hallA hzs (memRead s.mem s.ptr) s hwf rfl hval
  have hwp : wrapIdx s.ptr 0 = s.ptr := wrapIdx_zero hwf.1
  refine ⟨t, { s with mem := memWrite s.mem (wrapIdx s.ptr 0) 0 }, ?_, ?_, ?_, ?_, rfl,
    rfl, rfl, ?_⟩
  · rw [show annotate_offset [Inst.Loop l] = [IWO.Loop (annotate_offset l)]
      by simp [annotate_offset]]
    exact Execs_singleton_loop.2 hloop
  · rw [show annotate_offset [Inst.Init 0] = [IWO.Init 0 0] by simp [annotate_offset]]
    exact Execs_cons_step (f := 0)
      (show execOne (IWO.Init 0 0) s = _ by simp only [execOne]) (Execs_nil _)
  · refine ⟨fun i => ?_, by rw [htp], by rw [hti], by rw [hto]⟩
    show memRead (memWrite s.mem (wrapIdx s.ptr 0) 0) i = memRead t.mem i
    rw [hwp, hreads i]
    by_cases hi : i = s.ptr
    · subst hi
      rw [if_pos rfl, memRead_memWrite_self]
    · rw [if_neg hi, memRead_memWrite_ne _ hi,
        deltaAt_zero_offsets _ hzero s.ptr i hi, Nat.mul_zero, Nat.add_zero,
        Nat.mod_eq_of_lt (memRead_lt_of_cellsWF hwf.2 i)]
  · show memRead (memWrite s.mem (wrapIdx s.ptr 0) 0) s.ptr = 0
    rw [hwp, memRead_memWrite_self]
  · intro i hi
    show memRead (memWrite s.mem (wrapIdx s.ptr 0) 0) i = memRead s.mem i
    rw [hwp, memRead_memWrite_ne _ hi]

theorem clear_loop_correct_witness :
    optimize_basic [Inst.AddI 255] = [Inst.AddI 255] ∧
    WF (St.mk [7] 0 [] []) ∧
    (optBasicGo [] (Inst.Loop [Inst.AddI 255] :: []) = optBasicGo (Inst.Init 0 :: []) [] ∧
      ∃ t t', Execs (annotate_offset [Inst.Loop [Inst.AddI 255]]) (St.mk [7] 0 [] []) t ∧
        Execs (annotate_offset [Inst.Init 0]) (St.mk [7] 0 [] []) t' ∧ stEquiv t' t ∧
        memRead t'.mem (St.mk [7] 0 [] []).ptr = 0 ∧
        t'.ptr = (St.mk [7] 0 [] []).ptr ∧
        t'.inp = (St.mk [7] 0 [] []).inp ∧ t'.out = (St.mk [7] 0 [] []).out ∧
        (∀ i, i ≠ (St.mk [7] 0 [] []).ptr →
          memRead t'.mem i = memRead (St.mk [7] 0 [] []).mem i)) :=
  ⟨by simp [optimize_basic, optBasicGo, pushA], ⟨by decide, by unfold cellsWF; decide⟩,
    clear_loop_correct [] [] (by simp [optimize_basic, optBasicGo, pushA])
      ⟨by decide, by unfold cellsWF; decide⟩⟩

/-! ### Peephole pass simulation -/

theorem annotate_append (xs ys : List Inst) :
    annotate_offset (xs ++ ys) = annotate_offset xs ++ annotate_offset ys := by
  induction xs with
  | nil => simp [annotate_offset]
  | cons i rest ih =>
    cases i <;> simp [annotate_offset, ih]

theorem SimE_frame {mid mid' : List IWO} (h : SimE mid mid') (pre post : List IWO) :
    SimE (pre ++ (mid ++ post)) (pre ++ (mid' ++ post)) :=
  SimE_append (SimE_refl pre) (SimE_append h (SimE_refl post))

theorem inst_frame_sim {m1 m2 : List Inst}
    (h : SimE (annotate_offset m1) (annotate_offset m2)) (a rest : List Inst) :
    SimE (annotate_offset (a ++ (m1 ++ rest))) (annotate_offset (a ++ (m2 ++ rest))) := by
  rw [annotate_append, annotate_append, annotate_append, annotate_append]
  exact SimE_frame h _ _
/-- Merging two adjacent adds at offset zero. -/
theorem merge_add_add (y x : Nat) :
    SimE [IWO.AddI 0 y, IWO.AddI 0 x] [IWO.AddI 0 ((y + x) % 256)] := by
  intro s s' hwf h
  obtain ⟨s₁, f1, hstep1, h1⟩ := Execs_cons_inv_step h
  obtain ⟨s₂, f2, hstep2, h2⟩ := Execs_cons_inv_step h1
  have hs' := Execs_nil_inv h2
  subst hs'
  simp only [stepGo, execOne] at hstep1 hstep2
  rw [checkedIdx_zero hwf.1] at hstep1
  cases hstep1
  simp only at hstep2
  rw [checkedIdx_zero hwf.1] at hstep2
  cases hstep2
  refine ⟨{ s with mem := memWrite s.mem s.ptr (memRead s.mem s.ptr + (y + x) % 256) },
    Execs_cons_step (f := 0) ?hs (Execs_nil _), ?he, rfl, rfl, rfl⟩
  case hs =>
    show execOne (IWO.AddI 0 ((y + x) % 256)) s = _
    simp only [execOne]
    rw [checkedIdx_zero hwf.1]
  case he =>
    intro i
    by_cases hi : i = s.ptr
    · subst hi
      rw [memRead_memWrite_self, memRead_memWrite_self, memRead_memWrite_self]
      omega
    · rw [memRead_memWrite_ne _ hi, memRead_memWrite_ne _ hi, memRead_memWrite_ne _ hi]

/-- Merging an add at offset zero into a preceding set. -/
theorem merge_init_add (y x : Nat) :
    SimE [IWO.Init 0 y, IWO.AddI 0 x] [IWO.Init 0 ((y + x) % 256)] := by
  intro s s' hwf h
  obtain ⟨s₁, f1, hstep1, h1⟩ := Execs_cons_inv_step h
  obtain ⟨s₂, f2, hstep2, h2⟩ := Execs_cons_inv_step h1
  have hs' := Execs_nil_inv h2
  subst hs'
  simp only [stepGo, execOne] at hstep1 hstep2
  cases hstep1
  simp only at hstep2
  rw [checkedIdx_zero hwf.1] at hstep2
  cases hstep2
  have hwp : wrapIdx s.ptr 0 = s.ptr := wrapIdx_zero hwf.1
  refine ⟨{ s with mem := memWrite s.mem (wrapIdx s.ptr 0) ((y + x) % 256) },
    Execs_cons_step (f := 0) ?hs (Execs_nil _), ?he, rfl, rfl, rfl⟩
  case hs =>
    show execOne (IWO.Init 0 ((y + x) % 256)) s = _
    simp only [execOne]
  case he =>
    intro i
    show memRead (memWrite s.mem (wrapIdx s.ptr 0) ((y + x) % 256)) i = _
    rw [hwp]
    by_cases hi : i = s.ptr
    · subst hi
      rw [memRead_memWrite_self, memRead_memWrite_self, memRead_memWrite_self]
      omega
    · rw [memRead_memWrite_ne _ hi, memRead_memWrite_ne _ hi, memRead_memWrite_ne _ hi]

/-- Merging two adjacent pointer moves: if both moves stay in range, so
does the combined one. -/
theorem merge_move_move (y x : Int) :
    SimE [IWO.MovePtr y, IWO.MovePtr x] [IWO.MovePtr (y + x)] := by
  intro s s' hwf h
  obtain ⟨s₁, f1, hstep1, h1⟩ := Execs_cons_inv_step h
  obtain ⟨s₂, f2, hstep2, h2⟩ := Execs_cons_inv_step h1
  have hs' := Execs_nil_inv h2
  subst hs'
  simp only [stepGo, execOne] at hstep1 hstep2
  cases hq : checkedIdx s.ptr y with
  | none => rw [hq] at hstep1; exact absurd hstep1 (by simp)
  | some q =>
    rw [hq] at hstep1
    cases hstep1
    simp only at hstep2
    cases hr : checkedIdx q x with
    | none => rw [hr] at hstep2; exact absurd hstep2 (by simp)
    | some r =>
      rw [hr] at hstep2
      cases hstep2
      obtain ⟨hq1, hq2⟩ := checkedIdx_lt hq
      obtain ⟨hr1, hr2⟩ := checkedIdx_lt hr
      have hc : checkedIdx s.ptr (y + x) = some r := by
        have hb1 : (0 : Int) ≤ (s.ptr : Int) + (y + x) := by omega
        have hb2 : (s.ptr : Int) + (y + x) < (USIZE : Int) := by omega
        rw [checkedIdx_of_bounds hb1 hb2]
        congr 1
        omega
      refine ⟨{ s with ptr := r }, Execs_cons_step (f := 0) ?hs (Execs_nil _),
        fun i => rfl, rfl, rfl, rfl⟩
      show execOne (IWO.MovePtr (y + x)) s = _
      simp only [execOne]
      rw [hc]

/-- The clear-loop rewrite: `Loop [AddI 255]` simulates to `Init 0`. -/
theorem clear_sim : SimE [IWO.Loop [IWO.AddI 0 255]] [IWO.Init 0 0] := by
  intro s sf hwf h
  have hloopex := Execs_singleton_loop.1 h
  have hval : ∀ q ∈ addPairs [IWO.AddI 0 255], (checkedIdx s.ptr q.1).isSome = true := by
    intro q hq
    rw [show addPairs [IWO.AddI 0 255] = [((0 : Int), 255)] from rfl] at hq
    rcases List.mem_cons.1 hq with h1 | h2
    · subst h1
      show (checkedIdx s.ptr 0).isSome = true
      rw [checkedIdx_zero hwf.1]
      rfl
    · exact absurd h2 (by simp)
  obtain ⟨t, hloop, htp, hti, hto, hreads⟩ :=
    addLoop_run [IWO.AddI 0 255] trivial rfl (memRead s.mem s.ptr) s hwf rfl hval
  have hsf : sf = t := LoopExec_det hloopex hloop
  subst hsf
  have hwp : wrapIdx s.ptr 0 = s.ptr := wrapIdx_zero hwf.1
  refine ⟨{ s with mem := memWrite s.mem (wrapIdx s.ptr 0) 0 },
    Execs_cons_step (f := 0) ?hs (Execs_nil _),
    ?he, by rw [htp], by rw [hti], by rw [hto]⟩
  case hs =>
    show execOne (IWO.Init 0 0) s = _
    simp only [execOne]
  case he =>
    intro i
    show memRead (memWrite s.mem (wrapIdx s.ptr 0) 0) i = memRead sf.mem i
    rw [hwp, hreads i, show addPairs [IWO.AddI 0 255] = [((0 : Int), 255)] from rfl]
    by_cases hi : i = s.ptr
    · subst hi
      rw [if_pos rfl, memRead_memWrite_self]
    · rw [if_neg hi, memRead_memWrite_ne _ hi,
        deltaAt_zero_offsets [((0 : Int), 255)] ?hz s.ptr i hi,
        Nat.mul_zero, Nat.add_zero, Nat.mod_eq_of_lt (memRead_lt_of_cellsWF hwf.2 i)]
      case hz =>
        intro q hq
        rcases List.mem_cons.1 hq with h1 | h2
        · rw [h1]
        · exact absurd h2 (by simp)

/-- The for-loop invariant of `optimize_basic`: the output so far plus the
remaining input simulates to the finished output. -/
theorem opt_go_sim : ∀ acc xs : List Inst,
    SimE (annotate_offset (acc.reverse ++ xs)) (annotate_offset (optBasicGo acc xs)) := by
  intro acc xs
  induction acc, xs using optBasicGo.induct with
  | case1 acc =>
    rw [optBasicGo, List.append_nil]
    exact SimE_refl _
  | case2 acc x rest ih =>
    rw [optBasicGo]
    refine SimE_trans ?stp1 ih
    cases acc with
    | nil => exact SimE_refl _
    | cons hd a =>
      cases hd with
      | AddI y =>
        rw [show pushA (Inst.AddI y :: a) x = Inst.AddI ((y + x) % 256) :: a from rfl,
          show (Inst.AddI ((y + x) % 256) :: a).reverse ++ rest
            = a.reverse ++ ([Inst.AddI ((y + x) % 256)] ++ rest) by simp,
          show (Inst.AddI y :: a).reverse ++ Inst.AddI x :: rest
            = a.reverse ++ ([Inst.AddI y, Inst.AddI x] ++ rest) by simp]
        refine inst_frame_sim ?mid1 a.reverse rest
        rw [show annotate_offset [Inst.AddI y, Inst.AddI x]
            = [IWO.AddI 0 y, IWO.AddI 0 x] by simp [annotate_offset],
          show annotate_offset [Inst.AddI ((y + x) % 256)]
            = [IWO.AddI 0 ((y + x) % 256)] by simp [annotate_offset]]
        exact merge_add_add y x
      | Init y =>
        rw [show pushA (Inst.Init y :: a) x = Inst.Init ((y + x) % 256) :: a from rfl,
          show (Inst.Init ((y + x) % 256) :: a).reverse ++ rest
            = a.reverse ++ ([Inst.Init ((y + x) % 256)] ++ rest) by simp,
          show (Inst.Init y :: a).reverse ++ Inst.AddI x :: rest
            = a.reverse ++ ([Inst.Init y, Inst.AddI x] ++ rest) by simp]
        refine inst_frame_sim ?mid2 a.reverse rest
        rw [show annotate_offset [Inst.Init y, Inst.AddI x]
            = [IWO.Init 0 y, IWO.AddI 0 x] by simp [annotate_offset],
          show annotate_offset [Inst.Init ((y + x) % 256)]
            = [IWO.Init 0 ((y + x) % 256)] by simp [annotate_offset]]
        exact merge_init_add y x
      | MovePtr y =>
        rw [show (pushA (Inst.MovePtr y :: a) x).reverse ++ rest
          = (Inst.MovePtr y :: a).reverse ++ Inst.AddI x :: rest by simp [pushA]]
        exact SimE_refl _
      | GetChar =>
        rw [show (pushA (Inst.GetChar :: a) x).reverse ++ rest
          = (Inst.GetChar :: a).reverse ++ Inst.AddI x :: rest by simp [pushA]]
        exact SimE_refl _
      | PutChar =>
        rw [show (pushA (Inst.PutChar :: a) x).reverse ++ rest
          = (Inst.PutChar :: a).reverse ++ Inst.AddI x :: rest by simp [pushA]]
        exact SimE_refl _
      | Loop l =>
        rw [show (pushA (Inst.Loop l :: a) x).reverse ++ rest
          = (Inst.Loop l :: a).reverse ++ Inst.AddI x :: rest by simp [pushA]]
        exact SimE_refl _
  | case3 acc x rest ih =>
    rw [optBasicGo]
    refine SimE_trans ?stp2 ih
    cases acc with
    | nil => exact SimE_refl _
    | cons hd a =>
      cases hd with
      | MovePtr y =>
        rw [show pushM (Inst.MovePtr y :: a) x = Inst.MovePtr (y + x) :: a from rfl,
          show (Inst.MovePtr (y + x) :: a).reverse ++ rest
            = a.reverse ++ ([Inst.MovePtr (y + x)] ++ rest) by simp,
          show (Inst.MovePtr y :: a).reverse ++ Inst.MovePtr x :: rest
            = a.reverse ++ ([Inst.MovePtr y, Inst.MovePtr x] ++ rest) by simp]
        refine inst_frame_sim ?mid3 a.reverse rest
        rw [show annotate_offset [Inst.MovePtr y, Inst.MovePtr x]
            = [IWO.MovePtr y, IWO.MovePtr x] by simp [annotate_offset],
          show annotate_offset [Inst.MovePtr (y + x)]
            = [IWO.MovePtr (y + x)] by simp [annotate_offset]]
        exact merge_move_move y x
      | AddI y =>
        rw [show (pushM (Inst.AddI y :: a) x).reverse ++ rest
          = (Inst.AddI y :: a).reverse ++ Inst.MovePtr x :: rest by simp [pushM]]
        exact SimE_refl _
      | Init y =>
        rw [show (pushM (Inst.Init y :: a) x).reverse ++ rest
          = (Inst.Init y :: a).reverse ++ Inst.MovePtr x :: rest by simp [pushM]]
        exact SimE_refl _
      | GetChar =>
        rw [show (pushM (Inst.GetChar :: a) x).reverse ++ rest
          = (Inst.GetChar :: a).reverse ++ Inst.MovePtr x :: rest by simp [pushM]]
        exact SimE_refl _
      | PutChar =>
        rw [show (pushM (Inst.PutChar :: a) x).reverse ++ rest
          = (Inst.PutChar :: a).reverse ++ Inst.MovePtr x :: rest by simp [pushM]]
        exact SimE_refl _
      | Loop l =>
        rw [show (pushM (Inst.Loop l :: a) x).reverse ++ rest
          = (Inst.Loop l :: a).reverse ++ Inst.MovePtr x :: rest by simp [pushM]]
        exact SimE_refl _
  | case4 acc l rest hl ihl ih =>
    rw [show optBasicGo acc (Inst.Loop l :: rest) = optBasicGo (Inst.Init 0 :: acc) rest by
      rw [optBasicGo, hl]]
    refine SimE_trans ?stp3 ih
    rw [show acc.reverse ++ Inst.Loop l :: rest
        = acc.reverse ++ ([Inst.Loop l] ++ rest) by simp,
      show (Inst.Init 0 :: acc).reverse ++ rest
        = acc.reverse ++ ([Inst.Init 0] ++ rest) by simp]
    refine inst_frame_sim ?mid4 acc.reverse rest
    rw [show annotate_offset [Inst.Loop l]
        = [IWO.Loop (annotate_offset l)] by simp [annotate_offset],
      show annotate_offset [Inst.Init 0] = [IWO.Init 0 0] by simp [annotate_offset]]
    have hbody : SimE (annotate_offset l) [IWO.AddI 0 255] := by
      have h0 := ihl
      rw [hl, show annotate_offset [Inst.AddI 255] = [IWO.AddI 0 255] by
        simp [annotate_offset]] at h0
      simpa using h0
    exact SimE_trans (SimE_loop_cong hbody) clear_sim
  | case5 acc l rest hl ihl ih =>
    rw [show optBasicGo acc (Inst.Loop l :: rest)
        = optBasicGo (Inst.Loop (optBasicGo [] l) :: acc) rest by
      rw [optBasicGo]
      split
      · rename_i heq
        exact absurd heq hl
      · rfl]
    refine SimE_trans ?stp4 ih
    rw [show acc.reverse ++ Inst.Loop l :: rest
        = acc.reverse ++ ([Inst.Loop l] ++ rest) by simp,
      show (Inst.Loop (optBasicGo [] l) :: acc).reverse ++ rest
        = acc.reverse ++ ([Inst.Loop (optBasicGo [] l)] ++ rest) by simp]
    refine inst_frame_sim ?mid5 acc.reverse rest
    rw [show annotate_offset [Inst.Loop l]
        = [IWO.Loop (annotate_offset l)] by simp [annotate_offset],
      show annotate_offset [Inst.Loop (optBasicGo [] l)]
        = [IWO.Loop (annotate_offset (optBasicGo [] l))] by simp [annotate_offset]]
    exact SimE_loop_cong (by simpa using ihl)
  | case6 acc i rest hna hnm hnl ih =>
    have hrw : optBasicGo acc (i :: rest) = optBasicGo (i :: acc) rest := by
      cases i with
      | AddI x => exact absurd rfl (hna x)
      | MovePtr x => exact absurd rfl (hnm x)
      | Loop l => exact absurd rfl (hnl l)
      | Init x => rw [optBasicGo.eq_def]
      | GetChar => rw [optBasicGo.eq_def]
      | PutChar => rw [optBasicGo.eq_def]
    rw [hrw]
    refine SimE_trans ?stp5 ih
    rw [show (i :: acc).reverse ++ rest = acc.reverse ++ i :: rest by simp]
    exact SimE_refl _

/-- `optimize_basic` is a forward simulation on the annotated programs. -/
theorem opt_sim (xs : List Inst) :
    SimE (annotate_offset xs) (annotate_offset (optimize_basic xs)) := by
  have h := opt_go_sim [] xs
  simpa [optimize_basic] using h

/-- The whole optimization pipeline is a forward simulation. -/
theorem pipeline_sim (xs : List Inst) :
    SimE (annotate_offset xs) (pipeline xs) := by
  refine SimE_trans (opt_sim xs) (SimE_trans (delay_sim _) (SimE_trans (rzmp_sim _) ?_))
  exact l2a_sim _

/-- **C1** (amended).  The full optimization pipeline is a forward
simulation: for every source program whose bracket structure parses, and
every input, whenever the unoptimized operation tree (run at offset 0)
terminates, the pipelined program terminates with the same tape reads at
every index, the same pointer, the same remaining input and the same
output.  (The unqualified equivalence of the original claim fails: for the
source `<>` the unoptimized tree faults on pointer underflow while the
optimized program is empty and succeeds; see the counterexample.) -/
theorem pipeline_preserves {code : List Char} {tree : List Inst} {inp : List Nat} {s' : St}
    (hparse : extract_loops (parse code) = some tree)
    (hrun : Execs (annotate_offset tree) (initSt inp) s') :
    ∃ s'', Execs (pipeline tree) (initSt inp) s'' ∧ stEquiv s'' s' :=
  pipeline_sim tree (initSt inp) s' (initSt_WF inp) hrun

theorem pipeline_preserves_witness :
    ∃ s'', Execs (pipeline []) (initSt []) s'' ∧ stEquiv s'' (initSt []) :=
  @pipeline_preserves [] [] [] (initSt []) rfl
    ⟨0, by
      rw [show annotate_offset [] = [] by simp [annotate_offset]]
      exact bodyGo_nil 0 _⟩

/-- The unqualified equivalence of C1 fails on the program `<>`: it parses
to `[MovePtr (-1), MovePtr 1]`, whose direct execution faults (the
`checked_add_signed(..).unwrap()` panic on pointer underflow), while the
pipeline coalesces the two moves into `MovePtr 0`, deletes it, and the
resulting empty program runs to completion. -/
theorem pipeline_not_equivalent :
    extract_loops (parse ['<', '>']) = some [Inst.MovePtr (-1), Inst.MovePtr 1] ∧
    (¬ ∃ s', Execs (annotate_offset [Inst.MovePtr (-1), Inst.MovePtr 1]) (initSt []) s') ∧
    pipeline [Inst.MovePtr (-1), Inst.MovePtr 1] = [] ∧
    Execs (pipeline [Inst.MovePtr (-1), Inst.MovePtr 1]) (initSt []) (initSt []) := by
  have hp : pipeline [Inst.MovePtr (-1), Inst.MovePtr 1] = [] := by
    show loop_to_addmul (remove_zero_move_ptr (delay_move_ptr (annotate_offset
      (optimize_basic [Inst.MovePtr (-1), Inst.MovePtr 1])))) = []
    rw [show optimize_basic [Inst.MovePtr (-1), Inst.MovePtr 1] = [Inst.MovePtr 0] by
      simp [optimize_basic, optBasicGo, pushM]]
    rw [show annotate_offset [Inst.MovePtr 0] = [IWO.MovePtr 0] by simp [annotate_offset]]
    rw [show delay_move_ptr [IWO.MovePtr 0] = [] by simp [delay_move_ptr, delayGo]]
    rw [show remove_zero_move_ptr ([] : List IWO) = [] by simp [remove_zero_move_ptr]]
    simp [loop_to_addmul]
  refine ⟨rfl, ?noRun, hp, ⟨0, by rw [hp]; exact bodyGo_nil 0 _⟩⟩
  rintro ⟨s', f, hf⟩
  rw [show annotate_offset [Inst.MovePtr (-1), Inst.MovePtr 1]
    = [IWO.MovePtr (-1), IWO.MovePtr 1] by simp [annotate_offset]] at hf
  rw [bodyGo_cons] at hf
  rw [show stepGo f (IWO.MovePtr (-1)) (initSt []) = none by
    show execOne (IWO.MovePtr (-1)) (initSt []) = none
    simp only [execOne]
    rw [show (initSt []).ptr = 0 from rfl, checkedIdx_zero_neg_one]] at hf
  exact Option.noConfusion hf
